import Mathlib

/-!
Shallow embedding of the five linked-list variants of the repository
(src/first.rs, src/second.rs, src/third.rs, src/fourth.rs, src/fifth.rs),
together with proofs of the specification claims about them.

Conventions of the embedding:

* Pure owned structures (first.rs, second.rs) become Lean inductive types,
  with `Box<Node>` fields inlined into constructors.
* Shared / raw-pointer structures (third.rs, fourth.rs, fifth.rs) are
  modelled with an explicit heap: addresses are natural numbers, `0` plays
  the role of the null pointer / `None` link, `mem : Nat → Option Node`
  is the set of live allocations, and `bump` is the next fresh address
  handed out on allocation (`Rc::new` / `Box::into_raw`).
* Fallible reads that the Rust code performs through pointers that are
  always valid in a real execution (e.g. dereferencing a non-null `tail`)
  are given a harmless default branch in the embedding; such branches are
  marked "unreachable" and are indeed never taken from states reachable
  from `new`, as the representation invariants below show.
-/

/-- Overwrite one cell of an address-indexed heap. -/
def hupd (m : Nat → Option β) (a : Nat) (v : Option β) : Nat → Option β :=
  fun b => if b = a then v else m b

namespace First

/-- first.rs: `enum Link { Empty, More(Box<Node>) }` with
`struct Node { elem: i32, next: Link }`; the boxed node's two fields are
inlined into the `more` constructor. -/
inductive LinkF : Type where
  | empty : LinkF
  | more (elem : Int) (next : LinkF) : LinkF
deriving DecidableEq

/-- first.rs: `pub struct List { head: Link }`. -/
structure ListF where
  head : LinkF
deriving DecidableEq

/-- first.rs `List::new`. -/
def new : ListF := ⟨LinkF.empty⟩

/-- first.rs `List::push`: the new node's `next` is the old head
(taken out by `mem::replace`), and the head becomes the new node. -/
def push (l : ListF) (elem : Int) : ListF :=
  ⟨LinkF.more elem l.head⟩

/-- first.rs `List::pop`: the head is replaced by `Empty`; on `More(node)`
the head becomes `node.next` and `Some(node.elem)` is returned. -/
def pop (l : ListF) : ListF × Option Int :=
  match l.head with
  | LinkF.empty => (⟨LinkF.empty⟩, none)
  | LinkF.more elem next => (⟨next⟩, some elem)

/-- The element sequence of a link chain, front (head) to back. -/
def chainList : LinkF → List Int
  | LinkF.empty => []
  | LinkF.more e n => e :: chainList n

/-- Abstraction of a first.rs list to its element sequence. -/
def absF (l : ListF) : List Int := chainList l.head

/-- One client operation on the first.rs stack. -/
inductive Op : Type where
  | push (x : Int) : Op
  | pop : Op

/-- Run a sequence of operations against the first.rs implementation,
collecting the result of every `pop`. -/
def run (l : ListF) : List Op → ListF × List (Option Int)
  | [] => (l, [])
  | Op.push x :: ops => run (push l x) ops
  | Op.pop :: ops =>
    let p := pop l
    let r := run p.1 ops
    (r.1, p.2 :: r.2)

/-- Reference LIFO stack over a plain Lean list: push is cons, pop takes
the most recently pushed element. -/
def specRun (q : List Int) : List Op → List Int × List (Option Int)
  | [] => (q, [])
  | Op.push x :: ops => specRun (x :: q) ops
  | Op.pop :: ops =>
    let r := specRun q.tail ops
    (r.1, q.head? :: r.2)

end First

namespace Second

/-- second.rs: `struct Node<T> { elem: T, next: Link<T> }` with
`type Link<T> = Option<Box<Node<T>>>`. -/
inductive NodeS (α : Type) : Type where
  | mk (elem : α) (next : Option (NodeS α)) : NodeS α

/-- Projection for the `elem` field of second.rs `Node`. -/
def NodeS.elem : NodeS α → α
  | NodeS.mk e _ => e

/-- Projection for the `next` field of second.rs `Node`. -/
def NodeS.next : NodeS α → Option (NodeS α)
  | NodeS.mk _ n => n

/-- second.rs: `pub struct List<T> { head: Link<T> }`. -/
structure ListS (α : Type) where
  head : Option (NodeS α)

/-- second.rs `List::new`. -/
def new (α : Type) : ListS α := ⟨none⟩

/-- second.rs `List::push`: the new node's `next` is `self.head.take()`,
and the head becomes the new node. -/
def push (l : ListS α) (elem : α) : ListS α :=
  ⟨some (NodeS.mk elem l.head)⟩

/-- second.rs `List::pop`: `self.head.take().map(|node| { self.head = node.next;
node.elem })`. -/
def pop (l : ListS α) : ListS α × Option α :=
  match l.head with
  | none => (⟨none⟩, none)
  | some node => (⟨node.next⟩, some node.elem)

/-- second.rs `List::iter`: the iterator's `next` field starts at the head
node (`self.head.as_deref()`). -/
def iter (l : ListS α) : Option (NodeS α) := l.head

/-- second.rs `Iter::next`: yield the current node's element and advance
to `node.next`; on `None` yield `None` and stay exhausted. -/
def iterNext (it : Option (NodeS α)) : Option (NodeS α) × Option α :=
  match it with
  | none => (none, none)
  | some node => (node.next, some node.elem)

/-- second.rs `IntoIter::next` is `self.0.pop()` on the wrapped list. -/
def intoIterNext (l : ListS α) : ListS α × Option α := pop l

/-- The element sequence hanging off a link, front to back. -/
def chainList : Option (NodeS α) → List α
  | none => []
  | some (NodeS.mk e n) => e :: chainList n

/-- Abstraction of a second.rs list to its element sequence. -/
def absS (l : ListS α) : List α := chainList l.head

/-- Drive a step function at most `n` times, collecting yielded values and
stopping at the first `none` — how a Rust iterator is consumed. -/
def drain (step : σ → σ × Option α) : Nat → σ → List α
  | 0, _ => []
  | n + 1, s =>
    match step s with
    | (_, none) => []
    | (s2, some x) => x :: drain step n s2

/-- One client operation on the second.rs stack. -/
inductive Op (α : Type) : Type where
  | push (x : α) : Op α
  | pop : Op α

/-- Run a sequence of operations against the second.rs implementation,
collecting the result of every `pop`. -/
def run (l : ListS α) : List (Op α) → ListS α × List (Option α)
  | [] => (l, [])
  | Op.push x :: ops => run (push l x) ops
  | Op.pop :: ops =>
    let p := pop l
    let r := run p.1 ops
    (r.1, p.2 :: r.2)

/-- Reference LIFO stack over a plain Lean list. -/
def specRun (q : List α) : List (Op α) → List α × List (Option α)
  | [] => (q, [])
  | Op.push x :: ops => specRun (x :: q) ops
  | Op.pop :: ops =>
    let r := specRun q.tail ops
    (r.1, q.head? :: r.2)

end Second

namespace Third

/-- third.rs: `struct Node<T> { elem: T, next: Link<T> }` with
`type Link<T> = Option<Rc<Node<T>>>`; the `Rc` is an address into the heap,
`0` standing for `None`. -/
structure NodeP (α : Type) where
  elem : α
  next : Nat
deriving DecidableEq

/-- The heap of reference-counted nodes shared by all third.rs list views:
`mem` is the set of live allocations, `bump` the next fresh address. -/
structure Heap3 (α : Type) where
  mem : Nat → Option (NodeP α)
  bump : Nat

/-- third.rs: `pub struct List<T> { head: Link<T> }` — one view into the
shared heap. -/
structure ListP where
  head : Nat
deriving DecidableEq

/-- Well-formed heap: address 0 is never allocated and every live
allocation sits below the bump pointer. -/
def WF (h : Heap3 α) : Prop :=
  0 < h.bump ∧ ∀ a, (h.mem a).isSome = true → a ≠ 0 ∧ a < h.bump

/-- third.rs `List::new`. -/
def new : ListP := ⟨0⟩

/-- third.rs `List::prepend`: allocate a fresh `Rc` node whose `next` is a
clone of `self.head`, and return the new view; `self` is untouched. -/
def prepend (h : Heap3 α) (l : ListP) (x : α) : Heap3 α × ListP :=
  (⟨hupd h.mem h.bump (some ⟨x, l.head⟩), h.bump + 1⟩, ⟨h.bump⟩)

/-- third.rs `List::tail`:
`self.head.as_ref().and_then(|node| node.next.clone())`. -/
def tail (h : Heap3 α) (l : ListP) : ListP :=
  match h.mem l.head with
  | none => ⟨0⟩
  | some n => ⟨n.next⟩

/-- third.rs `List::head`: `self.head.as_ref().map(|node| &node.elem)`. -/
def headElem (h : Heap3 α) (l : ListP) : Option α :=
  (h.mem l.head).map NodeP.elem

/-- The chain of (address, element) pairs a view consists of: starting at
a null head it is empty, otherwise the head node followed by the chain of
its successor. -/
inductive chain (m : Nat → Option (NodeP α)) : Nat → List (Nat × α) → Prop where
  | nil : chain m 0 []
  | cons {c : Nat} {v : α} {n : Nat} {l : List (Nat × α)} :
      c ≠ 0 → m c = some ⟨v, n⟩ → chain m n l → chain m c ((c, v) :: l)

end Third

namespace Fifth

/-- fifth.rs: `struct Node<T> { elem: T, next: Link<T> }` with
`type Link<T> = *mut Node<T>`; raw pointers are addresses, `0` is null. -/
structure NodeQ (α : Type) where
  elem : α
  next : Nat
deriving DecidableEq

/-- fifth.rs: `pub struct List<T> { head: Link<T>, tail: *mut Node<T> }`,
together with the heap of `Box::into_raw` allocations. -/
structure ListQ (α : Type) where
  mem : Nat → Option (NodeQ α)
  bump : Nat
  head : Nat
  tail : Nat

/-- fifth.rs `List::new`: both pointers null, nothing allocated. -/
def new (α : Type) : ListQ α :=
  ⟨fun _ => none, 1, 0, 0⟩

/-- fifth.rs `List::push`: allocate the new node with null `next`; if the
tail is non-null, link `(*self.tail).next` to the new node, otherwise set
the head to it; finally point the tail at the new node. -/
def push (s : ListQ α) (x : α) : ListQ α :=
  let a := s.bump
  let m1 := hupd s.mem a (some ⟨x, 0⟩)
  if s.tail ≠ 0 then
    let m2 :=
      match m1 s.tail with
      | some n => hupd m1 s.tail (some { n with next := a })
      | none => m1   -- unreachable: a non-null tail points to a live node
    { mem := m2, bump := a + 1, head := s.head, tail := a }
  else
    { mem := m1, bump := a + 1, head := a, tail := a }

/-- fifth.rs `List::pop`: on a null head return `None`; otherwise free the
head box, advance the head to its `next`, null the tail as well if the
list just became empty, and return the element. -/
def pop (s : ListQ α) : ListQ α × Option α :=
  if s.head = 0 then (s, none)
  else
    match s.mem s.head with
    | none => (s, none)   -- unreachable: a non-null head points to a live node
    | some n =>
      let m1 := hupd s.mem s.head none
      if n.next = 0 then
        ({ mem := m1, bump := s.bump, head := n.next, tail := 0 }, some n.elem)
      else
        ({ mem := m1, bump := s.bump, head := n.next, tail := s.tail }, some n.elem)

/-- A singly linked segment: `seg m c l d` says that starting at address
`c` the heap `m` holds the (address, element) chain `l`, whose last node's
`next` is `d` (and `c = d` for the empty chain). -/
inductive seg (m : Nat → Option (NodeQ α)) : Nat → List (Nat × α) → Nat → Prop where
  | nil (c : Nat) : seg m c [] c
  | cons {c : Nat} {v : α} {n : Nat} {l : List (Nat × α)} {d : Nat} :
      c ≠ 0 → m c = some ⟨v, n⟩ → seg m n l d → seg m c ((c, v) :: l) d

/-- Address of the last node of a chain, `0` for the empty chain. -/
def lastAddr (ns : List (Nat × α)) : Nat :=
  ((ns.getLast?).map Prod.fst).getD 0

/-- Representation invariant of the fifth.rs queue: the heap holds the
chain `ns` from `head` ending in null, `tail` is the last node's address
(null when empty), addresses are distinct, and everything sits below the
bump pointer. -/
def Inv (s : ListQ α) (ns : List (Nat × α)) : Prop :=
  seg s.mem s.head ns 0 ∧
  s.tail = lastAddr ns ∧
  (ns.map Prod.fst).Nodup ∧
  (∀ a ∈ ns.map Prod.fst, a < s.bump) ∧
  0 < s.bump

/-- One client operation on the fifth.rs queue. -/
inductive Op (α : Type) : Type where
  | push (x : α) : Op α
  | pop : Op α

/-- Run a sequence of operations against the fifth.rs implementation,
collecting the result of every `pop`. -/
def run (s : ListQ α) : List (Op α) → ListQ α × List (Option α)
  | [] => (s, [])
  | Op.push x :: ops => run (push s x) ops
  | Op.pop :: ops =>
    let p := pop s
    let r := run p.1 ops
    (r.1, p.2 :: r.2)

/-- Reference FIFO queue over a plain Lean list: push appends at the back,
pop takes the oldest element from the front. -/
def specRun (q : List α) : List (Op α) → List α × List (Option α)
  | [] => (q, [])
  | Op.push x :: ops => specRun (q ++ [x]) ops
  | Op.pop :: ops =>
    let r := specRun q.tail ops
    (r.1, q.head? :: r.2)

end Fifth

namespace Fourth

/-- fourth.rs: `struct Node<T> { elem: T, next: Link<T>, prev: Link<T> }`
with `type Link<T> = Option<Rc<RefCell<Node<T>>>>`; the `Rc` is an address
into the heap, `0` standing for `None`. -/
structure NodeD (α : Type) where
  elem : α
  next : Nat
  prev : Nat
deriving DecidableEq

/-- fourth.rs: `pub struct List<T> { head: Link<T>, tail: Link<T> }`,
together with the heap of reference-counted nodes. -/
structure ListD (α : Type) where
  mem : Nat → Option (NodeD α)
  bump : Nat
  head : Nat
  tail : Nat

/-- fourth.rs `List::new`. -/
def new (α : Type) : ListD α :=
  ⟨fun _ => none, 1, 0, 0⟩

/-- fourth.rs `List::push_front`: allocate `Node::new(elem)` (both links
null); on a non-empty list set the old head's `prev` and the new node's
`next` to each other and move the head; on an empty list point both head
and tail at the new node. -/
def pushFront (s : ListD α) (x : α) : ListD α :=
  let a := s.bump
  if s.head = 0 then
    { mem := hupd s.mem a (some ⟨x, 0, 0⟩), bump := a + 1, head := a, tail := a }
  else
    let m1 :=
      match s.mem s.head with
      | some n => hupd s.mem s.head (some { n with prev := a })
      | none => s.mem   -- unreachable: a non-null head points to a live node
    { mem := hupd m1 a (some ⟨x, s.head, 0⟩), bump := a + 1, head := a, tail := s.tail }

/-- fourth.rs `List::push_back`, the mirror image of `push_front`. -/
def pushBack (s : ListD α) (x : α) : ListD α :=
  let a := s.bump
  if s.tail = 0 then
    { mem := hupd s.mem a (some ⟨x, 0, 0⟩), bump := a + 1, head := a, tail := a }
  else
    let m1 :=
      match s.mem s.tail with
      | some n => hupd s.mem s.tail (some { n with next := a })
      | none => s.mem   -- unreachable: a non-null tail points to a live node
    { mem := hupd m1 a (some ⟨x, 0, s.tail⟩), bump := a + 1, head := s.head, tail := a }

/-- fourth.rs `List::pop_front`: take the head; if it has a successor,
null the successor's `prev` and move the head there, otherwise null the
tail too; the old head's `Rc` is unwrapped and freed, yielding its element. -/
def popFront (s : ListD α) : ListD α × Option α :=
  if s.head = 0 then (s, none)
  else
    match s.mem s.head with
    | none => (s, none)   -- unreachable: a non-null head points to a live node
    | some n =>
      let m1 := hupd s.mem s.head none
      if n.next = 0 then
        ({ mem := m1, bump := s.bump, head := 0, tail := 0 }, some n.elem)
      else
        let m2 :=
          match m1 n.next with
          | some n2 => hupd m1 n.next (some { n2 with prev := 0 })
          | none => m1   -- unreachable: the successor of a live node is live
        ({ mem := m2, bump := s.bump, head := n.next, tail := s.tail }, some n.elem)

/-- fourth.rs `List::pop_back`, the mirror image of `pop_front`. -/
def popBack (s : ListD α) : ListD α × Option α :=
  if s.tail = 0 then (s, none)
  else
    match s.mem s.tail with
    | none => (s, none)   -- unreachable: a non-null tail points to a live node
    | some n =>
      let m1 := hupd s.mem s.tail none
      if n.prev = 0 then
        ({ mem := m1, bump := s.bump, head := 0, tail := 0 }, some n.elem)
      else
        let m2 :=
          match m1 n.prev with
          | some n2 => hupd m1 n.prev (some { n2 with next := 0 })
          | none => m1   -- unreachable: the predecessor of a live node is live
        ({ mem := m2, bump := s.bump, head := s.head, tail := n.prev }, some n.elem)

/-- A doubly linked segment: `dseg m p c l q d` says that starting at
address `c`, whose node's `prev` must be `p`, the heap `m` holds the
(address, element) chain `l`; the last node's address is `q` and its
`next` is `d` (with `q = p` and `d = c` for the empty chain). -/
inductive dseg (m : Nat → Option (NodeD α)) : Nat → Nat → List (Nat × α) → Nat → Nat → Prop where
  | nil (p c : Nat) : dseg m p c [] p c
  | cons {p c : Nat} {v : α} {n : Nat} {l : List (Nat × α)} {q d : Nat} :
      c ≠ 0 → m c = some ⟨v, n, p⟩ → dseg m c n l q d → dseg m p c ((c, v) :: l) q d

/-- Representation invariant of the fourth.rs deque: the heap holds the
doubly linked chain `ns` from `head` to `tail` (first `prev` and last
`next` null), addresses are distinct, live allocations are exactly the
chain, and everything sits below the bump pointer. -/
def Inv (s : ListD α) (ns : List (Nat × α)) : Prop :=
  dseg s.mem 0 s.head ns s.tail 0 ∧
  (ns.map Prod.fst).Nodup ∧
  (∀ a, (s.mem a).isSome = true ↔ a ∈ ns.map Prod.fst) ∧
  (∀ a ∈ ns.map Prod.fst, a < s.bump) ∧
  0 < s.bump

/-- One incoming reference from the `List`'s `head` field. -/
def headRef (s : ListD α) (a : Nat) : Nat :=
  if s.head = a then 1 else 0

/-- One incoming reference from the `List`'s `tail` field. -/
def tailRef (s : ListD α) (a : Nat) : Nat :=
  if s.tail = a then 1 else 0

/-- Number of live nodes whose `next` field references address `a`. -/
def nextRefs (s : ListD α) (a : Nat) : Nat :=
  (List.range s.bump).countP (fun b => decide ((s.mem b).map NodeD.next = some a))

/-- Number of live nodes whose `prev` field references address `a`. -/
def prevRefs (s : ListD α) (a : Nat) : Nat :=
  (List.range s.bump).countP (fun b => decide ((s.mem b).map NodeD.prev = some a))

/-- Total number of incoming `Rc` references held on address `a`: the two
`List` fields plus all `next` and `prev` fields of live nodes. -/
def refs (s : ListD α) (a : Nat) : Nat :=
  headRef s a + tailRef s a + nextRefs s a + prevRefs s a

/-- One client operation on the fourth.rs deque. -/
inductive Op (α : Type) : Type where
  | pushFront (x : α) : Op α
  | pushBack (x : α) : Op α
  | popFront : Op α
  | popBack : Op α

/-- Run a sequence of operations against the fourth.rs implementation,
collecting the result of every pop. -/
def run (s : ListD α) : List (Op α) → ListD α × List (Option α)
  | [] => (s, [])
  | Op.pushFront x :: ops => run (pushFront s x) ops
  | Op.pushBack x :: ops => run (pushBack s x) ops
  | Op.popFront :: ops =>
    let p := popFront s
    let r := run p.1 ops
    (r.1, p.2 :: r.2)
  | Op.popBack :: ops =>
    let p := popBack s
    let r := run p.1 ops
    (r.1, p.2 :: r.2)

/-- Reference double-ended queue over a plain Lean list. -/
def specRun (q : List α) : List (Op α) → List α × List (Option α)
  | [] => (q, [])
  | Op.pushFront x :: ops => specRun (x :: q) ops
  | Op.pushBack x :: ops => specRun (q ++ [x]) ops
  | Op.popFront :: ops =>
    let r := specRun q.tail ops
    (r.1, q.head? :: r.2)
  | Op.popBack :: ops =>
    let r := specRun q.dropLast ops
    (r.1, q.getLast? :: r.2)

end Fourth

/-! ## Theorems: first.rs and second.rs stacks -/

namespace First

theorem pop_absF (l : ListF) :
    (pop l).2 = (absF l).head? ∧ absF (pop l).1 = (absF l).tail := by
  cases l with
  | mk head =>
    cases head with
    | empty => exact ⟨rfl, rfl⟩
    | more e n => exact ⟨rfl, rfl⟩

theorem run_specRun_stack : ∀ (ops : List Op) (l : ListF),
    (run l ops).2 = (specRun (absF l) ops).2 ∧
    absF (run l ops).1 = (specRun (absF l) ops).1 := by
  intro ops
  induction ops with
  | nil => intro l; exact ⟨rfl, rfl⟩
  | cons op ops ih =>
    intro l
    cases op with
    | push x => exact ih (push l x)
    | pop =>
      have hp := pop_absF l
      have h := ih (pop l).1
      simp only [run, specRun]
      rw [hp.1, hp.2] at *
      exact ⟨by rw [h.1], h.2⟩

end First

namespace Second

theorem chainList_nil (α : Type) : chainList (α := α) none = [] := by
  simp [chainList]

theorem chainList_cons (e : α) (n : Option (NodeS α)) :
    chainList (some (NodeS.mk e n)) = e :: chainList n := by
  simp [chainList]

theorem pop_absS (l : ListS α) :
    (pop l).2 = (absS l).head? ∧ absS (pop l).1 = (absS l).tail := by
  cases l with
  | mk head =>
    cases head with
    | none =>
      refine ⟨?_, ?_⟩ <;> simp [pop, absS, chainList_nil]
    | some node =>
      cases node with
      | mk e n =>
        refine ⟨?_, ?_⟩ <;>
          simp [pop, absS, chainList_cons, NodeS.elem, NodeS.next]

theorem run_specRun_optstack : ∀ (ops : List (Op α)) (l : ListS α),
    (run l ops).2 = (specRun (absS l) ops).2 ∧
    absS (run l ops).1 = (specRun (absS l) ops).1 := by
  intro ops
  induction ops with
  | nil => intro l; exact ⟨rfl, rfl⟩
  | cons op ops ih =>
    intro l
    cases op with
    | push x =>
      have h := ih (push l x)
      have habs : absS (push l x) = x :: absS l := by
        simp [absS, push, chainList_cons]
      rw [habs] at h
      simpa only [run, specRun] using h
    | pop =>
      have hp := pop_absS l
      have h := ih (pop l).1
      rw [hp.2] at h
      simp only [run, specRun]
      exact ⟨by rw [hp.1, h.1], h.2⟩

theorem drain_iterNext (α : Type) : ∀ (it : Option (NodeS α)) (k : Nat),
    drain iterNext ((chainList it).length + k) it = chainList it
  | none, k => by
    rw [chainList_nil]
    cases k with
    | zero => rfl
    | succ k => rfl
  | some (NodeS.mk e n), k => by
    rw [chainList_cons]
    have ih := drain_iterNext α n k
    show drain iterNext ((chainList n).length + 1 + k) (some (NodeS.mk e n)) =
      e :: chainList n
    rw [Nat.add_right_comm]
    show e :: drain iterNext ((chainList n).length + k) n = e :: chainList n
    rw [ih]

theorem drain_pop (α : Type) : ∀ (it : Option (NodeS α)) (k : Nat),
    drain pop ((chainList it).length + k) ⟨it⟩ = chainList it
  | none, k => by
    rw [chainList_nil]
    cases k with
    | zero => rfl
    | succ k => rfl
  | some (NodeS.mk e n), k => by
    rw [chainList_cons]
    have ih := drain_pop α n k
    show drain pop ((chainList n).length + 1 + k) ⟨some (NodeS.mk e n)⟩ =
      e :: chainList n
    rw [Nat.add_right_comm]
    show e :: drain pop ((chainList n).length + k) ⟨n⟩ = e :: chainList n
    rw [ih]

end Second

/-- C3: for the singly-linked stacks (first.rs and second.rs), every
sequence of push/pop operations started from `new` observes LIFO order:
the implementation run produces exactly the pop results of the reference
LIFO stack, and immediately after `push x`, `pop` returns `some x` and
restores the stack to its state before the push. -/
theorem claim_C3_stack_lifo :
    (∀ ops : List First.Op,
      (First.run First.new ops).2 = (First.specRun [] ops).2) ∧
    (∀ (α : Type) (ops : List (Second.Op α)),
      (Second.run (Second.new α) ops).2 = (Second.specRun [] ops).2) ∧
    (∀ (l : First.ListF) (x : Int), First.pop (First.push l x) = (l, some x)) ∧
    (∀ (α : Type) (l : Second.ListS α) (x : α),
      Second.pop (Second.push l x) = (l, some x)) :=
  ⟨fun ops => (First.run_specRun_stack ops First.new).1,
   fun α ops => by
    have h := (Second.run_specRun_optstack ops (Second.new α)).1
    rwa [show Second.absS (Second.new α) = [] from Second.chainList_nil α] at h,
   fun _ _ => rfl,
   fun _ _ _ => by
    simp [Second.pop, Second.push, Second.NodeS.elem, Second.NodeS.next]⟩

/-- C8: for the Option-based stack (second.rs), the sequences produced by
`iter` and `into_iter` are finite and equal to the list's element sequence
from front to back (`absS`), which is exactly the sequence that repeated
`pop` returns until exhausted (`IntoIter::next` is literally `pop`); once
exhausted, both iterators keep yielding `none`. -/
theorem claim_C8_second_iterators (α : Type) (l : Second.ListS α) (k : Nat) :
    Second.drain Second.iterNext ((Second.absS l).length + k) (Second.iter l) =
      Second.absS l ∧
    Second.drain Second.intoIterNext ((Second.absS l).length + k) l =
      Second.absS l ∧
    Second.drain Second.pop ((Second.absS l).length + k) l = Second.absS l ∧
    Second.iterNext (α := α) none = (none, none) ∧
    Second.pop (⟨none⟩ : Second.ListS α) = (⟨none⟩, none) :=
  ⟨Second.drain_iterNext α l.head k, Second.drain_pop α l.head k,
   Second.drain_pop α l.head k, rfl, rfl⟩

/-- C4: popping an empty container returns the empty indicator `none` and
leaves the container unchanged (hence still empty), for each variant:
`pop` of first.rs and second.rs on an empty head, `tail`/`head` of
third.rs on the empty view, `pop_front`/`pop_back` of fourth.rs on a null
head/tail, and `pop` of fifth.rs on a null head. -/
theorem claim_C4_empty_pop :
    (∀ l : First.ListF, l.head = First.LinkF.empty → First.pop l = (l, none)) ∧
    (∀ (α : Type) (l : Second.ListS α), l.head = none →
      Second.pop l = (l, none)) ∧
    (∀ (α : Type) (h : Third.Heap3 α), h.mem 0 = none →
      Third.tail h Third.new = Third.new ∧ Third.headElem h Third.new = none) ∧
    (∀ (α : Type) (s : Fourth.ListD α), s.head = 0 →
      Fourth.popFront s = (s, none)) ∧
    (∀ (α : Type) (s : Fourth.ListD α), s.tail = 0 →
      Fourth.popBack s = (s, none)) ∧
    (∀ (α : Type) (s : Fifth.ListQ α), s.head = 0 →
      Fifth.pop s = (s, none)) := by
  refine ⟨fun l h => ?_, fun α l h => ?_, fun α h h0 => ?_, fun α s h => ?_,
    fun α s h => ?_, fun α s h => ?_⟩
  · cases l; subst h; rfl
  · cases l; subst h; rfl
  · exact ⟨by simp [Third.tail, Third.new, h0], by simp [Third.headElem, Third.new, h0]⟩
  · simp [Fourth.popFront, h]
  · simp [Fourth.popBack, h]
  · simp [Fifth.pop, h]

/-- Witness for C4 at concrete empty containers of every variant. -/
theorem claim_C4_empty_pop_witness :
    First.pop First.new = (First.new, none) ∧
    Second.pop (Second.new Nat) = (Second.new Nat, none) ∧
    (Third.tail (⟨fun _ => none, 1⟩ : Third.Heap3 Nat) Third.new = Third.new ∧
      Third.headElem (⟨fun _ => none, 1⟩ : Third.Heap3 Nat) Third.new = none) ∧
    Fourth.popFront (Fourth.new Nat) = (Fourth.new Nat, none) ∧
    Fourth.popBack (Fourth.new Nat) = (Fourth.new Nat, none) ∧
    Fifth.pop (Fifth.new Nat) = (Fifth.new Nat, none) :=
  ⟨claim_C4_empty_pop.1 First.new rfl,
   claim_C4_empty_pop.2.1 Nat (Second.new Nat) rfl,
   claim_C4_empty_pop.2.2.1 Nat ⟨fun _ => none, 1⟩ rfl,
   claim_C4_empty_pop.2.2.2.1 Nat (Fourth.new Nat) rfl,
   claim_C4_empty_pop.2.2.2.2.1 Nat (Fourth.new Nat) rfl,
   claim_C4_empty_pop.2.2.2.2.2 Nat (Fifth.new Nat) rfl⟩

/-! ## Theorems: third.rs persistent list -/

namespace Third

theorem WF_mem_zero (h : Heap3 α) (hwf : WF h) : h.mem 0 = none := by
  cases hmem : h.mem 0 with
  | none => rfl
  | some n => exact absurd (hwf.2 0 (by simp [hmem])).1 (by simp)

theorem chain_lt (h : Heap3 α) (hwf : WF h) :
    ∀ {c : Nat} {ns : List (Nat × α)}, chain h.mem c ns →
    ∀ e ∈ ns, e.1 ≠ 0 ∧ e.1 < h.bump := by
  intro c ns hc
  induction hc with
  | nil => intro e he; cases he
  | @cons c v n l h1 h2 _ ih =>
    intro e he
    rcases List.mem_cons.1 he with rfl | hmem
    · exact ⟨h1, (hwf.2 c (by simp [h2])).2⟩
    · exact ih e hmem

theorem chain_agree {m m2 : Nat → Option (NodeP α)} :
    ∀ {c : Nat} {ns : List (Nat × α)}, chain m c ns →
    (∀ e ∈ ns, m2 e.1 = m e.1) → chain m2 c ns := by
  intro c ns hc
  induction hc with
  | nil => intro _; exact chain.nil
  | @cons c v n l h1 h2 _ ih =>
    intro hag
    refine chain.cons h1 ?_ (ih fun e he => hag e (List.mem_cons_of_mem _ he))
    rw [hag (c, v) (List.mem_cons_self _ _)]
    exact h2

theorem chain_start_ne_bump (h : Heap3 α) (hwf : WF h) {c : Nat}
    {ms : List (Nat × α)} (hc : chain h.mem c ms) : c ≠ h.bump := by
  cases hc with
  | nil => exact fun h0 => absurd (h0 ▸ hwf.1) (by simp)
  | @cons c v n l h1 h2 _ =>
    exact Nat.ne_of_lt (hwf.2 c (by simp [h2])).2

end Third

/-- C5: for the persistent list (third.rs), `prepend x` returns a view
whose chain is `x` followed by the original chain (so its element
sequence, the chain's second components, is `x` followed by the original
sequence); every pre-existing view over the shared heap — in particular
the original list and any sibling sharing the same suffix — keeps exactly
its chain and its observable `head`, and the heap stays well formed. -/
theorem claim_C5_persistent_prepend (α : Type) (h : Third.Heap3 α)
    (l : Third.ListP) (x : α) (ns : List (Nat × α)) (hwf : Third.WF h)
    (hc : Third.chain h.mem l.head ns) :
    Third.chain (Third.prepend h l x).1.mem (Third.prepend h l x).2.head
      ((h.bump, x) :: ns) ∧
    ((h.bump, x) :: ns).map Prod.snd = x :: ns.map Prod.snd ∧
    (∀ (s : Third.ListP) (ms : List (Nat × α)), Third.chain h.mem s.head ms →
      Third.chain (Third.prepend h l x).1.mem s.head ms ∧
      Third.headElem (Third.prepend h l x).1 s = Third.headElem h s) ∧
    Third.WF (Third.prepend h l x).1 := by
  have hold : ∀ (s : Third.ListP) (ms : List (Nat × α)),
      Third.chain h.mem s.head ms →
      Third.chain (Third.prepend h l x).1.mem s.head ms ∧
      Third.headElem (Third.prepend h l x).1 s = Third.headElem h s := by
    intro s ms hcs
    constructor
    · refine Third.chain_agree hcs fun e he => ?_
      have hlt := Third.chain_lt h hwf hcs e he
      simp [Third.prepend, hupd, Nat.ne_of_lt hlt.2]
    · have hne := Third.chain_start_ne_bump h hwf hcs
      simp [Third.headElem, Third.prepend, hupd, hne]
  refine ⟨?_, rfl, hold, ?_⟩
  · refine Third.chain.cons hwf.1.ne' ?_ (hold l ns hc).1
    simp [Third.prepend, hupd]
  · refine ⟨Nat.lt_succ_of_lt hwf.1, fun a ha => ?_⟩
    by_cases hab : a = h.bump
    · subst hab
      exact ⟨hwf.1.ne', Nat.lt_succ_self _⟩
    · simp only [Third.prepend, hupd] at ha
      rw [if_neg hab] at ha
      have := hwf.2 a ha
      exact ⟨this.1, Nat.lt_succ_of_lt this.2⟩

/-- Witness for C5 on the empty heap with the empty view. -/
theorem claim_C5_persistent_prepend_witness :
    Third.WF (⟨fun _ => none, 1⟩ : Third.Heap3 Nat) ∧
    Third.chain (⟨fun _ => none, 1⟩ : Third.Heap3 Nat).mem
      (⟨0⟩ : Third.ListP).head [] ∧
    (Third.chain (Third.prepend (⟨fun _ => none, 1⟩ : Third.Heap3 Nat) ⟨0⟩ 5).1.mem
      (Third.prepend (⟨fun _ => none, 1⟩ : Third.Heap3 Nat) ⟨0⟩ 5).2.head
      [((1 : Nat), (5 : Nat))] ∧
    ([((1 : Nat), (5 : Nat))].map Prod.snd = [5]) ∧
    (∀ (s : Third.ListP) (ms : List (Nat × Nat)),
      Third.chain (⟨fun _ => none, 1⟩ : Third.Heap3 Nat).mem s.head ms →
      Third.chain (Third.prepend (⟨fun _ => none, 1⟩ : Third.Heap3 Nat) ⟨0⟩ 5).1.mem
        s.head ms ∧
      Third.headElem (Third.prepend (⟨fun _ => none, 1⟩ : Third.Heap3 Nat) ⟨0⟩ 5).1 s =
        Third.headElem (⟨fun _ => none, 1⟩ : Third.Heap3 Nat) s) ∧
    Third.WF (Third.prepend (⟨fun _ => none, 1⟩ : Third.Heap3 Nat) ⟨0⟩ 5).1) := by
  have hwf : Third.WF (⟨fun _ => none, 1⟩ : Third.Heap3 Nat) :=
    ⟨Nat.one_pos, fun a ha => by simp [Option.isSome] at ha⟩
  have hc : Third.chain (⟨fun _ => none, 1⟩ : Third.Heap3 Nat).mem
      (⟨0⟩ : Third.ListP).head [] := Third.chain.nil
  exact ⟨hwf, hc, claim_C5_persistent_prepend Nat ⟨fun _ => none, 1⟩ ⟨0⟩ 5 [] hwf hc⟩

/-- C6: for the persistent list (third.rs), `tail` returns the
structurally sharing suffix view: its chain is the original chain minus
the first node (still living in the same, unmodified heap — `tail`
returns only a new view and never writes), its observable head element is
the original second element, and on the empty list it returns the empty
list. -/
theorem claim_C6_persistent_tail (α : Type) (h : Third.Heap3 α)
    (l : Third.ListP) (ns : List (Nat × α)) (hwf : Third.WF h)
    (hc : Third.chain h.mem l.head ns) :
    Third.chain h.mem (Third.tail h l).head ns.tail ∧
    Third.headElem h (Third.tail h l) = (ns.tail.map Prod.snd).head? ∧
    (ns = [] → Third.tail h l = ⟨0⟩) := by
  obtain ⟨hd⟩ := l
  change Third.chain h.mem hd ns at hc
  cases hc with
  | nil =>
    have h0 : h.mem 0 = none := Third.WF_mem_zero h hwf
    refine ⟨?_, ?_, fun _ => ?_⟩ <;> simp [Third.tail, Third.headElem, h0]
    exact Third.chain.nil
  | @cons c v n rest h1 h2 h3 =>
    have htl : Third.tail h ⟨hd⟩ = ⟨n⟩ := by simp [Third.tail, h2]
    refine ⟨by rw [htl]; exact h3, ?_, by intro hk; cases hk⟩
    rw [htl]
    cases h3 with
    | nil =>
      have h0 : h.mem 0 = none := Third.WF_mem_zero h hwf
      simp [Third.headElem, h0]
    | @cons c2 v2 n2 rest2 g1 g2 g3 =>
      simp [Third.headElem, g2]

/-- Witness for C6 on a one-element heap. -/
theorem claim_C6_persistent_tail_witness :
    Third.WF (⟨hupd (fun _ => none) 1 (some ⟨7, 0⟩), 2⟩ : Third.Heap3 Nat) ∧
    Third.chain (⟨hupd (fun _ => none) 1 (some ⟨7, 0⟩), 2⟩ : Third.Heap3 Nat).mem
      (⟨1⟩ : Third.ListP).head [((1 : Nat), (7 : Nat))] ∧
    (Third.chain (⟨hupd (fun _ => none) 1 (some ⟨7, 0⟩), 2⟩ : Third.Heap3 Nat).mem
      (Third.tail (⟨hupd (fun _ => none) 1 (some ⟨7, 0⟩), 2⟩ : Third.Heap3 Nat) ⟨1⟩).head
      ([((1 : Nat), (7 : Nat))].tail) ∧
    Third.headElem (⟨hupd (fun _ => none) 1 (some ⟨7, 0⟩), 2⟩ : Third.Heap3 Nat)
      (Third.tail (⟨hupd (fun _ => none) 1 (some ⟨7, 0⟩), 2⟩ : Third.Heap3 Nat) ⟨1⟩) =
      (([((1 : Nat), (7 : Nat))].tail.map Prod.snd).head?) ∧
    ([((1 : Nat), (7 : Nat))] = [] →
      Third.tail (⟨hupd (fun _ => none) 1 (some ⟨7, 0⟩), 2⟩ : Third.Heap3 Nat) ⟨1⟩ = ⟨0⟩)) := by
  have hwf : Third.WF (⟨hupd (fun _ => none) 1 (some ⟨7, 0⟩), 2⟩ : Third.Heap3 Nat) := by
    refine ⟨by simp, fun a ha => ?_⟩
    by_cases h1 : a = 1
    · subst h1; exact ⟨by simp, by simp⟩
    · simp [hupd, h1, Option.isSome] at ha
  have hc : Third.chain (⟨hupd (fun _ => none) 1 (some ⟨7, 0⟩), 2⟩ : Third.Heap3 Nat).mem
      (⟨1⟩ : Third.ListP).head [((1 : Nat), (7 : Nat))] := by
    refine Third.chain.cons (by simp) (by simp [hupd]) Third.chain.nil
  exact ⟨hwf, hc,
    claim_C6_persistent_tail Nat ⟨hupd (fun _ => none) 1 (some ⟨7, 0⟩), 2⟩ ⟨1⟩
      [((1 : Nat), (7 : Nat))] hwf hc⟩

/-! ## Theorems: fifth.rs queue -/

namespace Fifth

theorem seg_agree {m m2 : Nat → Option (NodeQ α)} :
    ∀ {c d : Nat} {ns : List (Nat × α)}, seg m c ns d →
    (∀ e ∈ ns, m2 e.1 = m e.1) → seg m2 c ns d := by
  intro c d ns hs
  induction hs with
  | nil c => intro _; exact seg.nil c
  | @cons c v n l d h1 h2 _ ih =>
    intro hag
    refine seg.cons h1 ?_ (ih fun e he => hag e (List.mem_cons_of_mem _ he))
    rw [hag (c, v) (List.mem_cons_self _ _)]
    exact h2

theorem seg_append {m : Nat → Option (NodeQ α)} :
    ∀ {c e : Nat} {l1 : List (Nat × α)}, seg m c l1 e →
    ∀ {d : Nat} {l2 : List (Nat × α)}, seg m e l2 d → seg m c (l1 ++ l2) d := by
  intro c e l1 h1
  induction h1 with
  | nil c => intro d l2 h2; exact h2
  | @cons c v n l e h1 h2 _ ih => intro d l2 hs; exact seg.cons h1 h2 (ih hs)

theorem seg_split {m : Nat → Option (NodeQ α)} :
    ∀ (l1 : List (Nat × α)) {c d : Nat} {l2 : List (Nat × α)},
    seg m c (l1 ++ l2) d → ∃ e, seg m c l1 e ∧ seg m e l2 d := by
  intro l1
  induction l1 with
  | nil => intro c d l2 h; exact ⟨c, seg.nil c, h⟩
  | cons hd tl ih =>
    obtain ⟨a, v⟩ := hd
    intro c d l2 h
    cases h with
    | cons h1 h2 h3 =>
      obtain ⟨e, he1, he2⟩ := ih h3
      exact ⟨e, seg.cons h1 h2 he1, he2⟩

theorem seg_nil_eq {m : Nat → Option (NodeQ α)} {c d : Nat}
    (h : seg m c ([] : List (Nat × α)) d) : c = d := by
  cases h; rfl

theorem lastAddr_nil : lastAddr ([] : List (Nat × α)) = 0 := rfl

theorem lastAddr_concat (ns : List (Nat × α)) (a : Nat) (x : α) :
    lastAddr (ns ++ [(a, x)]) = a := by
  simp [lastAddr]

theorem lastAddr_cons_of_ne (c : Nat) (v : α) {rest : List (Nat × α)}
    (h : rest ≠ []) : lastAddr ((c, v) :: rest) = lastAddr rest := by
  obtain ⟨r, rs, rfl⟩ := List.exists_cons_of_ne_nil h
  simp [lastAddr, List.getLast?_cons_cons]

theorem Inv_new_queue (α : Type) : Inv (new α) ([] : List (Nat × α)) :=
  ⟨seg.nil 0, rfl, List.nodup_nil, by simp, Nat.one_pos⟩

theorem push_inv {mem : Nat → Option (NodeQ α)} {bump hd tl : Nat} {x : α}
    {ns : List (Nat × α)} (h : Inv ⟨mem, bump, hd, tl⟩ ns) :
    Inv (push ⟨mem, bump, hd, tl⟩ x) (ns ++ [(bump, x)]) := by
  obtain ⟨hseg0, htail0, hnodup, hlt0, hb0⟩ := h
  have hseg : seg mem hd ns 0 := hseg0
  have htail : tl = lastAddr ns := htail0
  have hlt : ∀ a ∈ ns.map Prod.fst, a < bump := hlt0
  have hb : 0 < bump := hb0
  rcases List.eq_nil_or_concat' ns with rfl | ⟨init, ⟨t, w⟩, rfl⟩
  · -- the queue is empty: head and tail are both null
    have hhd : hd = 0 := seg_nil_eq hseg
    have htl : tl = 0 := by rw [htail, lastAddr_nil]
    subst hhd htl
    have hpush : push (⟨mem, bump, 0, 0⟩ : ListQ α) x =
        ⟨hupd mem bump (some ⟨x, 0⟩), bump + 1, bump, bump⟩ := by
      simp [push]
    rw [hpush]
    refine ⟨?_, ?_, ?_, ?_, Nat.succ_pos _⟩
    · exact seg.cons hb.ne' (by simp [hupd]) (seg.nil 0)
    · simp [lastAddr]
    · simp
    · simp
  · -- the queue ends in node `t`; the new node is linked after it
    obtain ⟨e, h1, h2⟩ := seg_split init hseg
    cases h2 with
    | @cons _ _ n _ _ hne hmem h3 =>
      have hn : n = 0 := seg_nil_eq h3
      subst hn
      have htl : tl = t := by rw [htail, lastAddr_concat]
      have htlt : t < bump := hlt t (by simp)
      have htinit : t ∉ init.map Prod.fst := by
        rw [List.map_append, List.nodup_append] at hnodup
        intro hmem2
        exact hnodup.2.2 hmem2 (by simp)
      have hbinit : ∀ a ∈ init.map Prod.fst, a < bump := by
        intro a ha
        exact hlt a (by rw [List.map_append]; exact List.mem_append_left _ ha)
      subst htl
      have hm1 : hupd mem bump (some ⟨x, 0⟩) tl = some ⟨w, 0⟩ := by
        simp [hupd, Nat.ne_of_lt htlt]
        exact hmem
      have hpush : push (⟨mem, bump, hd, tl⟩ : ListQ α) x =
          ⟨hupd (hupd mem bump (some ⟨x, 0⟩)) tl (some ⟨w, bump⟩), bump + 1, hd, bump⟩ := by
        simp [push, hne, hm1]
      rw [hpush]
      set m2 := hupd (hupd mem bump (some ⟨x, 0⟩)) tl (some ⟨w, bump⟩) with hm2
      have hagree : ∀ e2 ∈ init, m2 e2.1 = mem e2.1 := by
        intro e2 he2
        have h1ne : e2.1 ≠ tl := fun hq => htinit (hq ▸ List.mem_map_of_mem Prod.fst he2)
        have h2ne : e2.1 ≠ bump :=
          Nat.ne_of_lt (hbinit e2.1 (List.mem_map_of_mem Prod.fst he2))
        simp [hm2, hupd, h1ne, h2ne]
      refine ⟨?_, ?_, ?_, ?_, Nat.succ_pos _⟩
      · show seg m2 hd ((init ++ [(tl, w)]) ++ [(bump, x)]) 0
        rw [List.append_assoc]
        refine seg_append (seg_agree h1 hagree) ?_
        refine seg.cons hne (show m2 tl = some ⟨w, bump⟩ from by simp [hm2, hupd]) ?_
        refine seg.cons hb.ne'
          (show m2 bump = some ⟨x, 0⟩ from by simp [hm2, hupd, htlt.ne'])
          (seg.nil 0)
      · show bump = lastAddr ((init ++ [(tl, w)]) ++ [(bump, x)])
        exact (lastAddr_concat (init ++ [(tl, w)]) bump x).symm
      · show (((init ++ [(tl, w)]) ++ [(bump, x)]).map Prod.fst).Nodup
        rw [List.map_append, List.nodup_append]
        refine ⟨hnodup, List.nodup_singleton _, ?_⟩
        intro a ha hb2
        simp at hb2
        subst hb2
        exact absurd (hlt a ha) (lt_irrefl _)
      · intro a ha
        rw [List.map_append] at ha
        rcases List.mem_append.1 ha with ha | ha
        · exact Nat.lt_succ_of_lt (hlt a ha)
        · simp at ha
          subst ha
          exact Nat.lt_succ_self _

theorem pop_nil {s : ListQ α} (h : Inv s ([] : List (Nat × α))) :
    pop s = (s, none) := by
  obtain ⟨hseg, _, _, _, _⟩ := h
  have hhd : s.head = 0 := seg_nil_eq hseg
  simp [pop, hhd]

theorem pop_cons {mem : Nat → Option (NodeQ α)} {bump hd tl : Nat} {c : Nat}
    {v : α} {rest : List (Nat × α)} (h : Inv ⟨mem, bump, hd, tl⟩ ((c, v) :: rest)) :
    (pop ⟨mem, bump, hd, tl⟩).2 = some v ∧ Inv (pop ⟨mem, bump, hd, tl⟩).1 rest := by
  obtain ⟨hseg0, htail0, hnodup0, hlt0, hb0⟩ := h
  have hseg : seg mem hd ((c, v) :: rest) 0 := hseg0
  have htail : tl = lastAddr ((c, v) :: rest) := htail0
  have hnodup : (((c, v) :: rest).map Prod.fst).Nodup := hnodup0
  have hlt : ∀ a ∈ ((c, v) :: rest).map Prod.fst, a < bump := hlt0
  have hb : 0 < bump := hb0
  cases hseg with
  | @cons _ _ n _ _ h1 h2 h3 =>
    rw [List.map_cons, List.nodup_cons] at hnodup
    have hagree : ∀ e ∈ rest, hupd mem hd none e.1 = mem e.1 := by
      intro e he
      have hmm : e.1 ∈ rest.map Prod.fst := List.mem_map_of_mem Prod.fst he
      have : e.1 ≠ hd := fun hq => hnodup.1 (hq ▸ hmm)
      simp [hupd, this]
    by_cases hn : n = 0
    · -- the queue becomes empty: the tail is nulled as well
      subst hn
      have hrest : rest = [] := by
        cases h3 with
        | nil => rfl
        | cons hx hy hz => exact absurd rfl hx
      subst hrest
      have hpop : pop (⟨mem, bump, hd, tl⟩ : ListQ α) =
          (⟨hupd mem hd none, bump, 0, 0⟩, some v) := by
        simp [pop, h1, h2]
      rw [hpop]
      exact ⟨rfl, seg.nil 0, rfl, List.nodup_nil, by simp, hb⟩
    · -- the queue keeps at least one node
      have hrest : rest ≠ [] := by
        intro hr
        subst hr
        exact hn (seg_nil_eq h3)
      have hpop : pop (⟨mem, bump, hd, tl⟩ : ListQ α) =
          (⟨hupd mem hd none, bump, n, tl⟩, some v) := by
        simp [pop, h1, h2, hn]
      rw [hpop]
      refine ⟨rfl, seg_agree h3 hagree, ?_, hnodup.2, ?_, hb⟩
      · show tl = lastAddr rest
        rw [htail, lastAddr_cons_of_ne hd v hrest]
      · intro a ha
        exact hlt a (List.mem_cons_of_mem _ ha)

theorem run_sim_queue : ∀ (ops : List (Op α)) (s : ListQ α) (ns : List (Nat × α)),
    Inv s ns →
    (run s ops).2 = (specRun (ns.map Prod.snd) ops).2 ∧
    ∃ ns2, Inv (run s ops).1 ns2 ∧
      ns2.map Prod.snd = (specRun (ns.map Prod.snd) ops).1 := by
  intro ops
  induction ops with
  | nil => intro s ns h; exact ⟨rfl, ns, h, rfl⟩
  | cons op ops ih =>
    intro s ns h
    cases op with
    | push x =>
      have h2 : Inv (push s x) (ns ++ [(s.bump, x)]) := push_inv h
      have hmap : (ns ++ [(s.bump, x)]).map Prod.snd = ns.map Prod.snd ++ [x] := by
        simp
      have hih := ih (push s x) (ns ++ [(s.bump, x)]) h2
      rw [hmap] at hih
      exact hih
    | pop =>
      cases ns with
      | nil =>
        have hp := pop_nil h
        have hih := ih s [] h
        have hrun : run s (Op.pop :: ops) =
            ((run s ops).1, none :: (run s ops).2) := by
          simp only [run, hp]
        have hspec : specRun (List.map Prod.snd ([] : List (Nat × α))) (Op.pop :: ops) =
            ((specRun [] ops).1, none :: (specRun [] ops).2) := by
          simp [specRun]
        rw [hrun, hspec]
        refine ⟨?_, ?_⟩
        · show none :: (run s ops).2 = none :: (specRun [] ops).2
          rw [hih.1]
          rfl
        · show ∃ ns2, Inv (run s ops).1 ns2 ∧
            ns2.map Prod.snd = (specRun [] ops).1
          obtain ⟨ns2, hns2, hmap2⟩ := hih.2
          exact ⟨ns2, hns2, by rw [hmap2]; rfl⟩
      | cons hd2 rest =>
        obtain ⟨c, v⟩ := hd2
        have hp := pop_cons h
        have hih := ih (pop s).1 rest hp.2
        have hrun : run s (Op.pop :: ops) =
            ((run (pop s).1 ops).1, (pop s).2 :: (run (pop s).1 ops).2) := by
          simp only [run]
        have hspec : specRun (((c, v) :: rest).map Prod.snd) (Op.pop :: ops) =
            ((specRun (rest.map Prod.snd) ops).1,
              some v :: (specRun (rest.map Prod.snd) ops).2) := by
          simp [specRun]
        rw [hrun, hspec]
        exact ⟨by rw [hp.1, hih.1], hih.2⟩

end Fifth

/-- C1: for the unchecked-pointer queue (fifth.rs), every sequence of
push/pop operations started from `new` observes FIFO order: the
implementation run produces exactly the pop results of the reference FIFO
queue, whose pop always returns the oldest element still enqueued. -/
theorem claim_C1_fifth_fifo (α : Type) (ops : List (Fifth.Op α)) :
    (Fifth.run (Fifth.new α) ops).2 = (Fifth.specRun [] ops).2 :=
  (Fifth.run_sim_queue ops (Fifth.new α) [] (Fifth.Inv_new_queue α)).1

/-- C2: for the unchecked-pointer queue (fifth.rs), the invariant "the
tail pointer is null iff the head pointer is null (the list is empty)"
holds after `new` and is preserved by every `push` (whose fresh node is
non-null since the allocator only hands out positive addresses,
`0 < s.bump`) and by every `pop`. -/
theorem claim_C2_fifth_tail_null (α : Type) :
    ((Fifth.new α).tail = 0 ↔ (Fifth.new α).head = 0) ∧
    (∀ (s : Fifth.ListQ α) (x : α), 0 < s.bump →
      (s.tail = 0 ↔ s.head = 0) →
      ((Fifth.push s x).tail = 0 ↔ (Fifth.push s x).head = 0)) ∧
    (∀ s : Fifth.ListQ α, (s.tail = 0 ↔ s.head = 0) →
      ((Fifth.pop s).1.tail = 0 ↔ (Fifth.pop s).1.head = 0)) := by
  refine ⟨Iff.rfl, fun s x hb hP => ?_, fun s hP => ?_⟩
  · by_cases ht : s.tail = 0
    · have hh : s.head = 0 := hP.1 ht
      simp [Fifth.push, ht, hb.ne']
    · simp only [Fifth.push, ne_eq, ht, not_false_eq_true, if_true]
      constructor
      · intro h2
        exact absurd h2 hb.ne'
      · intro h2
        exact absurd (hP.2 h2) ht
  · by_cases hh : s.head = 0
    · rw [show Fifth.pop s = (s, none) from by simp [Fifth.pop, hh]]
      exact hP
    · cases hmem : s.mem s.head with
      | none =>
        rw [show Fifth.pop s = (s, none) from by simp [Fifth.pop, hh, hmem]]
        exact hP
      | some n =>
        by_cases hn : n.next = 0
        · simp [Fifth.pop, hh, hmem, hn]
        · rw [show Fifth.pop s =
              (⟨hupd s.mem s.head none, s.bump, n.next, s.tail⟩, some n.elem) from by
            simp [Fifth.pop, hh, hmem, hn]]
          constructor
          · intro h2
            exact absurd (hP.1 h2) hh
          · intro h2
            exact absurd h2 hn

/-- Witness for C2: the invariant holds for the fresh queue and is kept
by a concrete push and pop on it. -/
theorem claim_C2_fifth_tail_null_witness :
    ((Fifth.new Nat).tail = 0 ↔ (Fifth.new Nat).head = 0) ∧
    (0 < (Fifth.new Nat).bump ∧
      ((Fifth.push (Fifth.new Nat) 3).tail = 0 ↔
        (Fifth.push (Fifth.new Nat) 3).head = 0)) ∧
    ((Fifth.pop (Fifth.new Nat)).1.tail = 0 ↔
      (Fifth.pop (Fifth.new Nat)).1.head = 0) := by
  have h := claim_C2_fifth_tail_null Nat
  exact ⟨h.1, ⟨Nat.one_pos, h.2.1 (Fifth.new Nat) 3 Nat.one_pos Iff.rfl⟩,
    h.2.2 (Fifth.new Nat) Iff.rfl⟩

/-! ## Theorems: fourth.rs deque -/

namespace Fourth

theorem dseg_agree {m m2 : Nat → Option (NodeD α)} :
    ∀ {p c q d : Nat} {ns : List (Nat × α)}, dseg m p c ns q d →
    (∀ e ∈ ns, m2 e.1 = m e.1) → dseg m2 p c ns q d := by
  intro p c q d ns hs
  induction hs with
  | nil p c => intro _; exact dseg.nil p c
  | @cons p c v n l q d h1 h2 _ ih =>
    intro hag
    refine dseg.cons h1 ?_ (ih fun e he => hag e (List.mem_cons_of_mem _ he))
    rw [hag (c, v) (List.mem_cons_self _ _)]
    exact h2

theorem dseg_append {m : Nat → Option (NodeD α)} :
    ∀ {p c q d : Nat} {l1 : List (Nat × α)}, dseg m p c l1 q d →
    ∀ {r e : Nat} {l2 : List (Nat × α)}, dseg m q d l2 r e →
    dseg m p c (l1 ++ l2) r e := by
  intro p c q d l1 h1
  induction h1 with
  | nil p c => intro r e l2 h2; exact h2
  | @cons p c v n l q d h1 h2 _ ih => intro r e l2 hs; exact dseg.cons h1 h2 (ih hs)

theorem dseg_split {m : Nat → Option (NodeD α)} :
    ∀ (l1 : List (Nat × α)) {p c r e : Nat} {l2 : List (Nat × α)},
    dseg m p c (l1 ++ l2) r e →
    ∃ q d, dseg m p c l1 q d ∧ dseg m q d l2 r e := by
  intro l1
  induction l1 with
  | nil => intro p c r e l2 h; exact ⟨p, c, dseg.nil p c, h⟩
  | cons hd tl ih =>
    obtain ⟨a, v⟩ := hd
    intro p c r e l2 h
    cases h with
    | cons h1 h2 h3 =>
      obtain ⟨q, d, hq1, hq2⟩ := ih h3
      exact ⟨q, d, dseg.cons h1 h2 hq1, hq2⟩

theorem dseg_nil_inv {m : Nat → Option (NodeD α)} {p c q d : Nat}
    (h : dseg m p c ([] : List (Nat × α)) q d) : q = p ∧ d = c := by
  cases h; exact ⟨rfl, rfl⟩

theorem dseg_ne_zero {m : Nat → Option (NodeD α)} :
    ∀ {p c q d : Nat} {ns : List (Nat × α)}, dseg m p c ns q d →
    ∀ e ∈ ns, e.1 ≠ 0 := by
  intro p c q d ns hs
  induction hs with
  | nil p c => intro e he; cases he
  | @cons p c v n l q d h1 _ _ ih =>
    intro e he
    rcases List.mem_cons.1 he with rfl | hmem
    · exact h1
    · exact ih e hmem

theorem dseg_last_mem {m : Nat → Option (NodeD α)} :
    ∀ {p c q d : Nat} {ns : List (Nat × α)}, dseg m p c ns q d →
    ns = [] ∨ q ∈ ns.map Prod.fst := by
  intro p c q d ns hs
  induction hs with
  | nil p c => exact Or.inl rfl
  | @cons p c v n l q d h1 h2 h3 ih =>
    refine Or.inr ?_
    rcases ih with rfl | hq
    · obtain ⟨hq, _⟩ := dseg_nil_inv h3
      subst hq
      simp
    · simp only [List.map_cons, List.mem_cons]
      exact Or.inr hq

theorem Inv_new_deque (α : Type) : Inv (new α) ([] : List (Nat × α)) :=
  ⟨dseg.nil 0 0, List.nodup_nil, by simp [new, Option.isSome], by simp, Nat.one_pos⟩

theorem pushFront_inv {mem : Nat → Option (NodeD α)} {bump hd tl : Nat} {x : α}
    {ns : List (Nat × α)} (h : Inv ⟨mem, bump, hd, tl⟩ ns) :
    Inv (pushFront ⟨mem, bump, hd, tl⟩ x) ((bump, x) :: ns) := by
  obtain ⟨hseg0, hnodup0, hdom0, hlt0, hb0⟩ := h
  have hseg : dseg mem 0 hd ns tl 0 := hseg0
  have hnodup : (ns.map Prod.fst).Nodup := hnodup0
  have hdom : ∀ a, (mem a).isSome = true ↔ a ∈ ns.map Prod.fst := hdom0
  have hlt : ∀ a ∈ ns.map Prod.fst, a < bump := hlt0
  have hb : 0 < bump := hb0
  by_cases hhd : hd = 0
  · -- the deque is empty: both List fields move to the new node
    subst hhd
    have hns : ns = [] := by
      cases hseg with
      | nil => rfl
      | cons h1 _ _ => exact absurd rfl h1
    subst hns
    have hpush : pushFront (⟨mem, bump, 0, tl⟩ : ListD α) x =
        ⟨hupd mem bump (some ⟨x, 0, 0⟩), bump + 1, bump, bump⟩ := by
      simp [pushFront]
    rw [hpush]
    refine ⟨?_, by simp, ?_, by simp, Nat.succ_pos _⟩
    · exact dseg.cons hb.ne' (by simp [hupd]) (dseg.nil bump 0)
    · intro b
      by_cases hba : b = bump
      · subst hba; simp [hupd]
      · have := hdom b
        simp only [List.map_nil, List.not_mem_nil, iff_false] at this
        simp [hupd, hba, this]
  · -- the deque is non-empty: the old head gains a `prev` link
    cases hseg with
    | nil => exact absurd rfl hhd
    | @cons _ _ v n l _ _ h1 h2 h3 =>
      have hdlt : hd < bump := hlt hd (by simp)
      have hdns : hd ∉ l.map Prod.fst := by
        rw [List.map_cons, List.nodup_cons] at hnodup
        exact hnodup.1
      have hpush : pushFront (⟨mem, bump, hd, tl⟩ : ListD α) x =
          ⟨hupd (hupd mem hd (some ⟨v, n, bump⟩)) bump (some ⟨x, hd, 0⟩),
            bump + 1, bump, tl⟩ := by
        simp [pushFront, hhd, h2]
      rw [hpush]
      set m2 := hupd (hupd mem hd (some ⟨v, n, bump⟩)) bump (some ⟨x, hd, 0⟩) with hm2
      have hagree : ∀ e ∈ l, m2 e.1 = mem e.1 := by
        intro e he
        have hmm : e.1 ∈ l.map Prod.fst := List.mem_map_of_mem Prod.fst he
        have h1ne : e.1 ≠ hd := fun hq => hdns (hq ▸ hmm)
        have h2ne : e.1 ≠ bump := Nat.ne_of_lt (hlt e.1 (List.mem_cons_of_mem _ hmm))
        simp [hm2, hupd, h1ne, h2ne]
      refine ⟨?_, ?_, ?_, ?_, Nat.succ_pos _⟩
      · refine dseg.cons hb.ne'
          (show m2 bump = some ⟨x, hd, 0⟩ from by simp [hm2, hupd]) ?_
        refine dseg.cons hhd
          (show m2 hd = some ⟨v, n, bump⟩ from by simp [hm2, hupd, Nat.ne_of_lt hdlt]) ?_
        exact dseg_agree h3 hagree
      · rw [List.map_cons, List.nodup_cons]
        refine ⟨fun hmm => ?_, hnodup⟩
        exact absurd (hlt bump hmm) (lt_irrefl _)
      · intro b
        by_cases hba : b = bump
        · subst hba; simp [hm2, hupd]
        · by_cases hbh : b = hd
          · subst hbh
            simp [hm2, hupd, hba, Nat.ne_of_lt hdlt]
          · have := hdom b
            simp only [hm2, hupd, hba, hbh, if_false, ite_false]
            rw [this]
            simp [hba, hbh]
      · intro b hbm
        rcases List.mem_cons.1 hbm with rfl | hbm
        · exact Nat.lt_succ_self _
        · exact Nat.lt_succ_of_lt (hlt b hbm)

end Fourth

namespace Fourth

theorem pushBack_inv {mem : Nat → Option (NodeD α)} {bump hd tl : Nat} {x : α}
    {ns : List (Nat × α)} (h : Inv ⟨mem, bump, hd, tl⟩ ns) :
    Inv (pushBack ⟨mem, bump, hd, tl⟩ x) (ns ++ [(bump, x)]) := by
  obtain ⟨hseg0, hnodup0, hdom0, hlt0, hb0⟩ := h
  have hseg : dseg mem 0 hd ns tl 0 := hseg0
  have hnodup : (ns.map Prod.fst).Nodup := hnodup0
  have hdom : ∀ a, (mem a).isSome = true ↔ a ∈ ns.map Prod.fst := hdom0
  have hlt : ∀ a ∈ ns.map Prod.fst, a < bump := hlt0
  have hb : 0 < bump := hb0
  by_cases htl0 : tl = 0
  · -- the deque is empty: both List fields move to the new node
    subst htl0
    have hns : ns = [] := by
      rcases dseg_last_mem hseg with rfl | hq
      · rfl
      · obtain ⟨e, he, hfst⟩ := List.mem_map.1 hq
        exact absurd hfst (dseg_ne_zero hseg e he)
    subst hns
    obtain ⟨_, hdc⟩ := dseg_nil_inv hseg
    subst hdc
    have hpush : pushBack (⟨mem, bump, 0, 0⟩ : ListD α) x =
        ⟨hupd mem bump (some ⟨x, 0, 0⟩), bump + 1, bump, bump⟩ := by
      simp [pushBack]
    rw [hpush]
    refine ⟨?_, by simp, ?_, by simp, Nat.succ_pos _⟩
    · exact dseg.cons hb.ne' (by simp [hupd]) (dseg.nil bump 0)
    · intro b
      by_cases hba : b = bump
      · subst hba; simp [hupd]
      · have := hdom b
        simp only [List.map_nil, List.not_mem_nil, iff_false] at this
        simp [hupd, hba, this]
  · -- the deque ends in node `tl`; the new node is linked after it
    rcases List.eq_nil_or_concat' ns with rfl | ⟨init, ⟨t, w⟩, rfl⟩
    · obtain ⟨hq, _⟩ := dseg_nil_inv hseg
      exact absurd hq htl0
    · obtain ⟨q, d, hs1, hs2⟩ := dseg_split init hseg
      cases hs2 with
      | @cons _ _ _ n2 _ _ _ ht0 hmem h3 =>
        obtain ⟨htlt2, hn2⟩ := dseg_nil_inv h3
        subst htlt2
        subst hn2
        have htlb : tl < bump := hlt tl (by simp)
        have htinit : tl ∉ init.map Prod.fst := by
          rw [List.map_append, List.nodup_append] at hnodup
          intro hmem2
          exact hnodup.2.2 hmem2 (by simp)
        have hpush : pushBack (⟨mem, bump, hd, tl⟩ : ListD α) x =
            ⟨hupd (hupd mem tl (some ⟨w, bump, q⟩)) bump (some ⟨x, 0, tl⟩),
              bump + 1, hd, bump⟩ := by
          simp [pushBack, htl0, hmem]
        rw [hpush]
        set m2 := hupd (hupd mem tl (some ⟨w, bump, q⟩)) bump (some ⟨x, 0, tl⟩) with hm2
        have hagree : ∀ e ∈ init, m2 e.1 = mem e.1 := by
          intro e he
          have hmm : e.1 ∈ init.map Prod.fst := List.mem_map_of_mem Prod.fst he
          have h1ne : e.1 ≠ tl := fun hq2 => htinit (hq2 ▸ hmm)
          have h2ne : e.1 ≠ bump := by
            refine Nat.ne_of_lt (hlt e.1 ?_)
            rw [List.map_append]
            exact List.mem_append_left _ hmm
          simp [hm2, hupd, h1ne, h2ne]
        refine ⟨?_, ?_, ?_, ?_, Nat.succ_pos _⟩
        · show dseg m2 0 hd ((init ++ [(tl, w)]) ++ [(bump, x)]) bump 0
          rw [List.append_assoc]
          refine dseg_append (dseg_agree hs1 hagree) ?_
          refine dseg.cons htl0
            (show m2 tl = some ⟨w, bump, q⟩ from by simp [hm2, hupd, Nat.ne_of_lt htlb])
            ?_
          refine dseg.cons hb.ne'
            (show m2 bump = some ⟨x, 0, tl⟩ from by simp [hm2, hupd])
            (dseg.nil bump 0)
        · rw [List.map_append, List.nodup_append]
          refine ⟨hnodup, List.nodup_singleton _, ?_⟩
          intro a ha hb2
          simp at hb2
          subst hb2
          exact absurd (hlt a ha) (lt_irrefl _)
        · intro b
          by_cases hba : b = bump
          · subst hba; simp [hm2, hupd]
          · by_cases hbt : b = tl
            · subst hbt
              simp only [hm2, hupd, hba, if_false, ite_false, if_true, if_pos rfl]
              simp [hba]
            · have := hdom b
              simp only [hm2, hupd, hba, hbt, if_false, ite_false]
              rw [this]
              simp [hba, hbt]
        · intro b hbm
          rw [List.map_append] at hbm
          rcases List.mem_append.1 hbm with hbm | hbm
          · exact Nat.lt_succ_of_lt (hlt b hbm)
          · simp at hbm
            subst hbm
            exact Nat.lt_succ_self _

theorem popFront_inv {mem : Nat → Option (NodeD α)} {bump hd tl c : Nat} {v : α}
    {rest : List (Nat × α)} (h : Inv ⟨mem, bump, hd, tl⟩ ((c, v) :: rest)) :
    (popFront ⟨mem, bump, hd, tl⟩).2 = some v ∧
    Inv (popFront ⟨mem, bump, hd, tl⟩).1 rest := by
  obtain ⟨hseg0, hnodup0, hdom0, hlt0, hb0⟩ := h
  have hseg : dseg mem 0 hd ((c, v) :: rest) tl 0 := hseg0
  have hnodup : (((c, v) :: rest).map Prod.fst).Nodup := hnodup0
  have hdom : ∀ a, (mem a).isSome = true ↔ a ∈ ((c, v) :: rest).map Prod.fst := hdom0
  have hlt : ∀ a ∈ ((c, v) :: rest).map Prod.fst, a < bump := hlt0
  have hb : 0 < bump := hb0
  cases hseg with
  | @cons _ _ _ n _ _ _ h1 h2 h3 =>
    rw [List.map_cons, List.nodup_cons] at hnodup
    by_cases hn : n = 0
    · -- the deque becomes empty: both List fields are nulled
      subst hn
      have hrest : rest = [] := by
        cases h3 with
        | nil => rfl
        | cons hx _ _ => exact absurd rfl hx
      subst hrest
      have hpop : popFront (⟨mem, bump, hd, tl⟩ : ListD α) =
          (⟨hupd mem hd none, bump, 0, 0⟩, some v) := by
        simp [popFront, h1, h2]
      rw [hpop]
      refine ⟨rfl, dseg.nil 0 0, List.nodup_nil, ?_, by simp, hb⟩
      intro b
      by_cases hbh : b = hd
      · subst hbh; simp [hupd]
      · have := hdom b
        simp only [List.map_cons, List.map_nil, List.mem_cons, List.not_mem_nil,
          or_false] at this
        simp [hupd, hbh, this]
    · -- the deque keeps its second node as the new head
      cases h3 with
      | nil => exact absurd rfl (by intro h0; exact hn h0.symm)
      | @cons _ _ v2 n2 rest2 _ _ hx1 hx2 hx3 =>
        have hhd_not : hd ∉ ((n, v2) :: rest2).map Prod.fst := hnodup.1
        have hsub : n ∉ rest2.map Prod.fst ∧ (rest2.map Prod.fst).Nodup := by
          have h4 := hnodup.2
          rw [List.map_cons, List.nodup_cons] at h4
          exact h4
        have hnhd : n ≠ hd := by
          intro hq
          exact hhd_not (hq ▸ (by simp : n ∈ ((n, v2) :: rest2).map Prod.fst))
        have hm1n : hupd mem hd none n = some ⟨v2, n2, hd⟩ := by
          simp [hupd, hnhd]
          exact hx2
        have hpop : popFront (⟨mem, bump, hd, tl⟩ : ListD α) =
            (⟨hupd (hupd mem hd none) n (some ⟨v2, n2, 0⟩), bump, n, tl⟩, some v) := by
          simp [popFront, h1, h2, hn, hm1n]
        rw [hpop]
        set m2 := hupd (hupd mem hd none) n (some ⟨v2, n2, 0⟩) with hm2
        have hagree : ∀ e ∈ rest2, m2 e.1 = mem e.1 := by
          intro e he
          have hmm : e.1 ∈ rest2.map Prod.fst := List.mem_map_of_mem Prod.fst he
          have h1ne : e.1 ≠ hd := fun hq =>
            hhd_not (hq ▸ List.mem_cons_of_mem _ hmm)
          have h2ne : e.1 ≠ n := fun hq => hsub.1 (hq ▸ hmm)
          simp [hm2, hupd, h1ne, h2ne]
        refine ⟨rfl, ?_, hnodup.2, ?_, ?_, hb⟩
        · refine dseg.cons hn (show m2 n = some ⟨v2, n2, 0⟩ from by simp [hm2, hupd]) ?_
          exact dseg_agree hx3 hagree
        · intro b
          show (m2 b).isSome = true ↔ b ∈ ((n, v2) :: rest2).map Prod.fst
          by_cases hbn : b = n
          · rw [show m2 b = some ⟨v2, n2, 0⟩ from by simp [hm2, hupd, hbn]]
            simp [hbn]
          · by_cases hbh : b = hd
            · rw [show m2 b = none from by
                simp [hm2, hupd, hbn, hbh, Ne.symm hnhd]]
              simp only [Option.isSome_none, Bool.false_eq_true, false_iff]
              intro hmm
              exact hhd_not (hbh ▸ hmm)
            · rw [show m2 b = mem b from by simp [hm2, hupd, hbn, hbh], hdom b]
              simp [hbh, hbn]
        · intro b hbm
          exact hlt b (List.mem_cons_of_mem _ hbm)

end Fourth

namespace Fourth

theorem popBack_inv {mem : Nat → Option (NodeD α)} {bump hd tl t : Nat} {w : α}
    {init : List (Nat × α)} (h : Inv ⟨mem, bump, hd, tl⟩ (init ++ [(t, w)])) :
    (popBack ⟨mem, bump, hd, tl⟩).2 = some w ∧
    Inv (popBack ⟨mem, bump, hd, tl⟩).1 init := by
  obtain ⟨hseg0, hnodup0, hdom0, hlt0, hb0⟩ := h
  have hseg : dseg mem 0 hd (init ++ [(t, w)]) tl 0 := hseg0
  have hnodup : ((init ++ [(t, w)]).map Prod.fst).Nodup := hnodup0
  have hdom : ∀ a, (mem a).isSome = true ↔ a ∈ (init ++ [(t, w)]).map Prod.fst := hdom0
  have hlt : ∀ a ∈ (init ++ [(t, w)]).map Prod.fst, a < bump := hlt0
  have hb : 0 < bump := hb0
  obtain ⟨q, d, hs1, hs2⟩ := dseg_split init hseg
  cases hs2 with
  | @cons _ _ _ n2 _ _ _ ht0 hmem h3 =>
    obtain ⟨htlt2, hn2⟩ := dseg_nil_inv h3
    subst htlt2
    subst hn2
    have htinit : tl ∉ init.map Prod.fst := by
      rw [List.map_append, List.nodup_append] at hnodup
      intro hmem2
      exact hnodup.2.2 hmem2 (by simp)
    have hinodup : (init.map Prod.fst).Nodup := by
      rw [List.map_append, List.nodup_append] at hnodup
      exact hnodup.1
    by_cases hq : q = 0
    · -- a single node: both List fields are nulled
      subst hq
      have hinit : init = [] := by
        rcases dseg_last_mem hs1 with rfl | hq2
        · rfl
        · obtain ⟨e, he, hfst⟩ := List.mem_map.1 hq2
          exact absurd hfst (dseg_ne_zero hs1 e he)
      subst hinit
      have hpop : popBack (⟨mem, bump, hd, tl⟩ : ListD α) =
          (⟨hupd mem tl none, bump, 0, 0⟩, some w) := by
        simp [popBack, ht0, hmem]
      rw [hpop]
      refine ⟨rfl, dseg.nil 0 0, List.nodup_nil, ?_, by simp, hb⟩
      intro b
      show (hupd mem tl none b).isSome = true ↔ b ∈ ([] : List (Nat × α)).map Prod.fst
      by_cases hbt : b = tl
      · simp [hupd, hbt]
      · have := hdom b
        simp only [List.nil_append, List.map_cons, List.map_nil, List.mem_cons,
          List.not_mem_nil, or_false] at this
        simp [hupd, hbt, this]
    · -- the predecessor of the old tail becomes the new tail
      rcases List.eq_nil_or_concat' init with rfl | ⟨init2, ⟨q0, w2⟩, rfl⟩
      · obtain ⟨hq2, _⟩ := dseg_nil_inv hs1
        exact absurd hq2 hq
      · obtain ⟨q2, d2, hs3, hs4⟩ := dseg_split init2 hs1
        cases hs4 with
        | @cons _ _ _ n3 _ _ _ hq00 hmem2 h5 =>
          obtain ⟨hqq0, hn3⟩ := dseg_nil_inv h5
          subst hqq0
          subst hn3
          -- now `q` is the address of the last node of `init`, whose `next` is `tl`
          have hqinit2 : q ∉ init2.map Prod.fst := by
            rw [List.map_append, List.nodup_append] at hinodup
            intro hmemq
            exact hinodup.2.2 hmemq (by simp)
          have hi2nodup : (init2.map Prod.fst).Nodup := by
            rw [List.map_append, List.nodup_append] at hinodup
            exact hinodup.1
          have hqtl : q ≠ tl := by
            intro hq2
            exact htinit (hq2 ▸ (by simp : q ∈ (init2 ++ [(q, w2)]).map Prod.fst))
          have hm1q : hupd mem tl none q = some ⟨w2, tl, q2⟩ := by
            simp [hupd, hqtl]
            exact hmem2
          have hpop : popBack (⟨mem, bump, hd, tl⟩ : ListD α) =
              (⟨hupd (hupd mem tl none) q (some ⟨w2, 0, q2⟩), bump, hd, q⟩, some w) := by
            simp [popBack, ht0, hmem, hq, hm1q]
          rw [hpop]
          set m2 := hupd (hupd mem tl none) q (some ⟨w2, 0, q2⟩) with hm2
          have hagree : ∀ e ∈ init2, m2 e.1 = mem e.1 := by
            intro e he
            have hmm : e.1 ∈ init2.map Prod.fst := List.mem_map_of_mem Prod.fst he
            have h1ne : e.1 ≠ q := fun hq2 => hqinit2 (hq2 ▸ hmm)
            have h2ne : e.1 ≠ tl := by
              intro hq2
              refine htinit (hq2 ▸ ?_)
              rw [List.map_append]
              exact List.mem_append_left _ hmm
            simp [hm2, hupd, h1ne, h2ne]
          refine ⟨rfl, ?_, hinodup, ?_, ?_, hb⟩
          · show dseg m2 0 hd (init2 ++ [(q, w2)]) q 0
            refine dseg_append (dseg_agree hs3 hagree) ?_
            refine dseg.cons hq
              (show m2 q = some ⟨w2, 0, q2⟩ from by simp [hm2, hupd]) (dseg.nil q 0)
          · intro b
            show (m2 b).isSome = true ↔ b ∈ ((init2 ++ [(q, w2)]).map Prod.fst)
            by_cases hbq : b = q
            · rw [show m2 b = some ⟨w2, 0, q2⟩ from by simp [hm2, hupd, hbq]]
              simp [hbq]
            · by_cases hbt : b = tl
              · rw [show m2 b = none from by simp [hm2, hupd, hbq, hbt, Ne.symm hqtl]]
                simp only [Option.isSome_none, Bool.false_eq_true, false_iff]
                intro hmm
                exact htinit (hbt ▸ hmm)
              · rw [show m2 b = mem b from by simp [hm2, hupd, hbq, hbt], hdom b]
                rw [List.map_append, List.map_append, List.mem_append, List.mem_append]
                simp [hbt]
          · intro b hbm
            refine hlt b ?_
            rw [List.map_append]
            exact List.mem_append_left _ hbm

end Fourth

namespace Fourth

theorem popFront_nil {s : ListD α} (h : Inv s ([] : List (Nat × α))) :
    popFront s = (s, none) := by
  obtain ⟨hseg, _, _, _, _⟩ := h
  obtain ⟨_, hdc⟩ := dseg_nil_inv hseg
  have hhd : s.head = 0 := hdc.symm
  simp [popFront, hhd]

theorem popBack_nil {s : ListD α} (h : Inv s ([] : List (Nat × α))) :
    popBack s = (s, none) := by
  obtain ⟨hseg, _, _, _, _⟩ := h
  have htl : s.tail = 0 := (dseg_nil_inv hseg).1
  simp [popBack, htl]

theorem Inv_null_iff {s : ListD α} {ns : List (Nat × α)} (h : Inv s ns) :
    (s.head = 0 ↔ s.tail = 0) ∧
    ((popFront s).2 = none ↔ (popBack s).2 = none) := by
  rcases List.eq_nil_or_concat' ns with rfl | ⟨init, ⟨t, w⟩, rfl⟩
  · obtain ⟨htl, hhd⟩ := dseg_nil_inv h.1
    rw [popFront_nil h, popBack_nil h]
    exact ⟨⟨fun _ => htl, fun _ => hhd.symm⟩, Iff.rfl⟩
  · have hback := popBack_inv h
    obtain ⟨⟨c, v⟩, rest, heq⟩ :=
      List.exists_cons_of_ne_nil (List.concat_ne_nil (t, w) init)
    rw [List.concat_eq_append] at heq
    have hcons : Inv s ((c, v) :: rest) := heq ▸ h
    have hfront := popFront_inv hcons
    have hhd : s.head ≠ 0 := by
      obtain ⟨hseg, -, -, -, -⟩ := hcons
      cases hseg with
      | cons h1 h2 h3 => exact h1
    have htl : s.tail ≠ 0 := by
      obtain ⟨hseg, -, -, -, -⟩ := hcons
      rcases dseg_last_mem hseg with heq2 | hmem
      · cases heq2
      · obtain ⟨e, he, hfst⟩ := List.mem_map.1 hmem
        exact hfst ▸ dseg_ne_zero hseg e he
    refine ⟨⟨fun h0 => absurd h0 hhd, fun h0 => absurd h0 htl⟩, ?_⟩
    rw [hfront.1, hback.1]
    simp

theorem run_sim_deque : ∀ (ops : List (Op α)) (s : ListD α) (ns : List (Nat × α)),
    Inv s ns →
    (run s ops).2 = (specRun (ns.map Prod.snd) ops).2 ∧
    ∃ ns2, Inv (run s ops).1 ns2 ∧
      ns2.map Prod.snd = (specRun (ns.map Prod.snd) ops).1 := by
  intro ops
  induction ops with
  | nil => intro s ns h; exact ⟨rfl, ns, h, rfl⟩
  | cons op ops ih =>
    intro s ns h
    cases op with
    | pushFront x =>
      have h2 : Inv (pushFront s x) ((s.bump, x) :: ns) := pushFront_inv h
      have hih := ih (pushFront s x) _ h2
      exact hih
    | pushBack x =>
      have h2 : Inv (pushBack s x) (ns ++ [(s.bump, x)]) := pushBack_inv h
      have hih := ih (pushBack s x) _ h2
      rw [show (ns ++ [(s.bump, x)]).map Prod.snd = ns.map Prod.snd ++ [x] from
        by simp] at hih
      exact hih
    | popFront =>
      cases ns with
      | nil =>
        have hp := popFront_nil h
        have hih := ih s [] h
        have hrun : run s (Op.popFront :: ops) =
            ((run s ops).1, none :: (run s ops).2) := by
          simp only [run, hp]
        have hspec : specRun (List.map Prod.snd ([] : List (Nat × α)))
            (Op.popFront :: ops) =
            ((specRun [] ops).1, none :: (specRun [] ops).2) := by
          simp [specRun]
        rw [hrun, hspec]
        refine ⟨?_, ?_⟩
        · show none :: (run s ops).2 = none :: (specRun [] ops).2
          rw [hih.1]
          rfl
        · obtain ⟨ns2, hns2, hmap2⟩ := hih.2
          exact ⟨ns2, hns2, by rw [hmap2]; rfl⟩
      | cons hd2 rest =>
        obtain ⟨c, v⟩ := hd2
        have hp := popFront_inv h
        have hih := ih (popFront s).1 rest hp.2
        have hrun : run s (Op.popFront :: ops) =
            ((run (popFront s).1 ops).1,
              (popFront s).2 :: (run (popFront s).1 ops).2) := by
          simp only [run]
        have hspec : specRun (((c, v) :: rest).map Prod.snd) (Op.popFront :: ops) =
            ((specRun (rest.map Prod.snd) ops).1,
              some v :: (specRun (rest.map Prod.snd) ops).2) := by
          simp [specRun]
        rw [hrun, hspec]
        exact ⟨by rw [hp.1, hih.1], hih.2⟩
    | popBack =>
      rcases List.eq_nil_or_concat' ns with rfl | ⟨init, ⟨t, w⟩, rfl⟩
      · have hp := popBack_nil h
        have hih := ih s [] h
        have hrun : run s (Op.popBack :: ops) =
            ((run s ops).1, none :: (run s ops).2) := by
          simp only [run, hp]
        have hspec : specRun (List.map Prod.snd ([] : List (Nat × α)))
            (Op.popBack :: ops) =
            ((specRun [] ops).1, none :: (specRun [] ops).2) := by
          simp [specRun]
        rw [hrun, hspec]
        refine ⟨?_, ?_⟩
        · show none :: (run s ops).2 = none :: (specRun [] ops).2
          rw [hih.1]
          rfl
        · obtain ⟨ns2, hns2, hmap2⟩ := hih.2
          exact ⟨ns2, hns2, by rw [hmap2]; rfl⟩
      · have hp := popBack_inv h
        have hih := ih (popBack s).1 init hp.2
        have hrun : run s (Op.popBack :: ops) =
            ((run (popBack s).1 ops).1,
              (popBack s).2 :: (run (popBack s).1 ops).2) := by
          simp only [run]
        have hspec : specRun ((init ++ [(t, w)]).map Prod.snd) (Op.popBack :: ops) =
            ((specRun (init.map Prod.snd) ops).1,
              some w :: (specRun (init.map Prod.snd) ops).2) := by
          simp [specRun]
        rw [hrun, hspec]
        exact ⟨by rw [hp.1, hih.1], hih.2⟩

end Fourth

/-- C7: for the doubly-linked deque (fourth.rs), every sequence of
push_front/push_back/pop_front/pop_back operations started from `new`
behaves as a double-ended queue over the element sequence: the
implementation run produces exactly the pop results of the reference
deque, where push_front prepends, push_back appends, pop_front takes the
first element and pop_back the last. -/
theorem claim_C7_fourth_deque (α : Type) (ops : List (Fourth.Op α)) :
    (Fourth.run (Fourth.new α) ops).2 = (Fourth.specRun [] ops).2 :=
  (Fourth.run_sim_deque ops (Fourth.new α) [] (Fourth.Inv_new_deque α)).1

/-- C10: for the doubly-linked deque (fourth.rs), after any operation
sequence from `new` the head field is null iff the tail field is null;
consequently pop_front returns `none` exactly when pop_back does. -/
theorem claim_C10_fourth_head_tail (α : Type) (ops : List (Fourth.Op α)) :
    ((Fourth.run (Fourth.new α) ops).1.head = 0 ↔
      (Fourth.run (Fourth.new α) ops).1.tail = 0) ∧
    ((Fourth.popFront (Fourth.run (Fourth.new α) ops).1).2 = none ↔
      (Fourth.popBack (Fourth.run (Fourth.new α) ops).1).2 = none) := by
  obtain ⟨ns2, hinv, -⟩ := (Fourth.run_sim_deque ops (Fourth.new α) [] (Fourth.Inv_new_deque α)).2
  exact Fourth.Inv_null_iff hinv

namespace Fourth

theorem countP_support_eq {P : Nat → Bool} {L : List Nat} {n : Nat}
    (hnd : L.Nodup) (hlt : ∀ b ∈ L, b < n) (hsupp : ∀ b, P b = true → b ∈ L) :
    (List.range n).countP P = L.countP P := by
  rw [List.countP_eq_length_filter, List.countP_eq_length_filter]
  refine List.Perm.length_eq ?_
  rw [List.perm_ext_iff_of_nodup ((List.nodup_range n).filter P) (hnd.filter P)]
  intro b
  rw [List.mem_filter, List.mem_filter, List.mem_range]
  constructor
  · rintro ⟨_, hp⟩
    exact ⟨hsupp b hp, hp⟩
  · rintro ⟨hb, hp⟩
    exact ⟨hlt b hb, hp⟩

theorem dseg_next_count_notmem {m : Nat → Option (NodeD α)} {a : Nat} :
    ∀ {p c q d : Nat} {l : List (Nat × α)}, dseg m p c l q d →
    a ∉ l.map Prod.fst → l ≠ [] →
    l.countP (fun e => decide ((m e.1).map NodeD.next = some a)) =
      if d = a then 1 else 0 := by
  intro p c q d l hs
  induction hs with
  | nil p c => intro _ hne; exact absurd rfl hne
  | @cons p c v n l q d h1 h2 h3 ih =>
    intro hnotin hne
    rw [List.countP_cons]
    by_cases hl : l = []
    · subst hl
      obtain ⟨hq, hd2⟩ := dseg_nil_inv h3
      subst hd2
      simp [h2]
    · have hfst : n ∈ l.map Prod.fst := by
        cases h3 with
        | nil => exact absurd rfl hl
        | cons _ _ _ => simp
      have hna : ¬n = a := fun hq =>
        hnotin (List.mem_cons_of_mem _ (hq ▸ hfst))
      rw [ih (fun hmm2 => hnotin (List.mem_cons_of_mem _ hmm2)) hl]
      simp [h2, hna]

theorem dseg_next_count {m : Nat → Option (NodeD α)} {a : Nat} :
    ∀ {p c q d : Nat} {l : List (Nat × α)}, dseg m p c l q d →
    (l.map Prod.fst).Nodup → a ∈ l.map Prod.fst →
    l.countP (fun e => decide ((m e.1).map NodeD.next = some a)) =
      (if c = a then 0 else 1) + (if d = a then 1 else 0) := by
  intro p c q d l hs
  induction hs with
  | nil p c => intro _ ha; exact absurd ha (by simp)
  | @cons p c v n l q d h1 h2 h3 ih =>
    intro hnd ha
    rw [List.map_cons, List.nodup_cons] at hnd
    rw [List.countP_cons]
    by_cases hl : l = []
    · subst hl
      obtain ⟨hq, hd2⟩ := dseg_nil_inv h3
      subst hd2
      have hac : a = c := by simpa using ha
      subst hac
      simp [h2]
    · have hrest : a = c ∨ a ∈ l.map Prod.fst := by simpa using ha
      rcases hrest with rfl | hmem
      · have hzero := dseg_next_count_notmem h3 hnd.1 hl
        rw [hzero]
        have hfst : n ∈ l.map Prod.fst := by
          cases h3 with
          | nil => exact absurd rfl hl
          | cons _ _ _ => simp
        have hnc : ¬n = a := fun hq => hnd.1 (hq ▸ hfst)
        simp [h2, hnc]
      · have hca : ¬c = a := fun hq => hnd.1 (hq ▸ hmem)
        rw [ih hnd.2 hmem]
        simp only [h2, Option.map_some, Option.some.injEq, hca, if_false, ite_false]
        by_cases hna : n = a <;> by_cases hda : d = a <;> simp [hna, hda]

theorem dseg_prev_count_notmem {m : Nat → Option (NodeD α)} {a : Nat} :
    ∀ {p c q d : Nat} {l : List (Nat × α)}, dseg m p c l q d →
    a ∉ l.map Prod.fst → l ≠ [] →
    l.countP (fun e => decide ((m e.1).map NodeD.prev = some a)) =
      if p = a then 1 else 0 := by
  intro p c q d l hs
  induction hs with
  | nil p c => intro _ hne; exact absurd rfl hne
  | @cons p c v n l q d h1 h2 h3 ih =>
    intro hnotin hne
    rw [List.countP_cons]
    by_cases hl : l = []
    · subst hl
      simp [h2]
    · have hca : ¬c = a := fun hq =>
        hnotin (hq ▸ (by simp : c ∈ ((c, v) :: l).map Prod.fst))
      rw [ih (fun hmm2 => hnotin (List.mem_cons_of_mem _ hmm2)) hl]
      simp [h2, hca]

theorem dseg_prev_count {m : Nat → Option (NodeD α)} {a : Nat} :
    ∀ {p c q d : Nat} {l : List (Nat × α)}, dseg m p c l q d →
    (l.map Prod.fst).Nodup → a ∈ l.map Prod.fst →
    l.countP (fun e => decide ((m e.1).map NodeD.prev = some a)) =
      (if q = a then 0 else 1) + (if p = a then 1 else 0) := by
  intro p c q d l hs
  induction hs with
  | nil p c => intro _ ha; exact absurd ha (by simp)
  | @cons p c v n l q d h1 h2 h3 ih =>
    intro hnd ha
    rw [List.map_cons, List.nodup_cons] at hnd
    rw [List.countP_cons]
    by_cases hl : l = []
    · subst hl
      obtain ⟨hq, hd2⟩ := dseg_nil_inv h3
      have hac : a = c := by simpa using ha
      subst hac
      rw [hq]
      simp [h2]
    · have hrest : a = c ∨ a ∈ l.map Prod.fst := by simpa using ha
      rcases hrest with rfl | hmem
      · have hzero := dseg_prev_count_notmem h3 hnd.1 hl
        rw [hzero]
        have hq_mem : q ∈ l.map Prod.fst := by
          rcases dseg_last_mem h3 with rfl | hq2
          · exact absurd rfl hl
          · exact hq2
        have hqa : ¬q = a := fun hq2 => hnd.1 (hq2 ▸ hq_mem)
        simp [h2, hqa]
      · have hca : ¬c = a := fun hq => hnd.1 (hq ▸ hmem)
        rw [ih hnd.2 hmem]
        simp only [h2, Option.map_some, Option.some.injEq, hca, if_false, ite_false]
        by_cases hqa : q = a <;> by_cases hpa : p = a <;> simp [hqa, hpa]

theorem Inv_refs_eq {mem : Nat → Option (NodeD α)} {bump hd tl : Nat}
    {ns : List (Nat × α)} (h : Inv ⟨mem, bump, hd, tl⟩ ns) {a : Nat}
    (ha : a ∈ ns.map Prod.fst) :
    nextRefs ⟨mem, bump, hd, tl⟩ a = (if hd = a then 0 else 1) ∧
    prevRefs ⟨mem, bump, hd, tl⟩ a = (if tl = a then 0 else 1) := by
  obtain ⟨hseg0, hnodup0, hdom0, hlt0, hb0⟩ := h
  have hseg : dseg mem 0 hd ns tl 0 := hseg0
  have hnodup : (ns.map Prod.fst).Nodup := hnodup0
  have hdom : ∀ b, (mem b).isSome = true ↔ b ∈ ns.map Prod.fst := hdom0
  have hlt : ∀ b ∈ ns.map Prod.fst, b < bump := hlt0
  have ha0 : a ≠ 0 := by
    obtain ⟨e, he, hfst⟩ := List.mem_map.1 ha
    exact hfst ▸ dseg_ne_zero hseg e he
  constructor
  · show (List.range bump).countP
      (fun b => decide ((mem b).map NodeD.next = some a)) = _
    rw [countP_support_eq hnodup hlt ?hsupp]
    case hsupp =>
      intro b hP
      rw [decide_eq_true_eq] at hP
      refine (hdom b).1 ?_
      cases hmem : mem b with
      | none => rw [hmem] at hP; cases hP
      | some nd => simp [hmem]
    rw [List.countP_map]
    have hcnt := dseg_next_count hseg hnodup ha
    rw [if_neg (Ne.symm ha0)] at hcnt
    simpa [Function.comp_def] using hcnt
  · show (List.range bump).countP
      (fun b => decide ((mem b).map NodeD.prev = some a)) = _
    rw [countP_support_eq hnodup hlt ?hsupp2]
    case hsupp2 =>
      intro b hP
      rw [decide_eq_true_eq] at hP
      refine (hdom b).1 ?_
      cases hmem : mem b with
      | none => rw [hmem] at hP; cases hP
      | some nd => simp [hmem]
    rw [List.countP_map]
    have hcnt := dseg_prev_count hseg hnodup ha
    rw [if_neg (Ne.symm ha0)] at hcnt
    simpa [Function.comp_def] using hcnt

theorem Inv_head_tail_mem {mem : Nat → Option (NodeD α)} {bump hd tl : Nat}
    {ns : List (Nat × α)} (h : Inv ⟨mem, bump, hd, tl⟩ ns) (hne : ns ≠ []) :
    hd ∈ ns.map Prod.fst ∧ tl ∈ ns.map Prod.fst := by
  have hseg : dseg mem 0 hd ns tl 0 := h.1
  constructor
  · cases hseg with
    | nil => exact absurd rfl hne
    | cons h1 h2 h3 => simp
  · rcases dseg_last_mem hseg with rfl | hq
    · exact absurd rfl hne
    · exact hq

end Fourth

/-- C9: for the shared doubly-linked deque (fourth.rs), after every
operation sequence from `new` each live node has exactly two incoming
references, counted over the `List`'s head and tail fields and all
`next`/`prev` fields of live nodes. The breakdown matches the invariant's
wording: an interior node (neither head nor tail) receives one `next`
reference from its predecessor and one `prev` reference from its
successor; the head node trades the predecessor reference for the `List`'s
head field, the tail node symmetrically; and when exactly one node is
live, both the head and the tail fields reference it. -/
theorem claim_C9_fourth_two_incoming (α : Type) (ops : List (Fourth.Op α)) (a : Nat) :
    (((Fourth.run (Fourth.new α) ops).1.mem a).isSome = true →
      Fourth.refs (Fourth.run (Fourth.new α) ops).1 a = 2 ∧
      Fourth.headRef (Fourth.run (Fourth.new α) ops).1 a =
        (if (Fourth.run (Fourth.new α) ops).1.head = a then 1 else 0) ∧
      Fourth.tailRef (Fourth.run (Fourth.new α) ops).1 a =
        (if (Fourth.run (Fourth.new α) ops).1.tail = a then 1 else 0) ∧
      Fourth.nextRefs (Fourth.run (Fourth.new α) ops).1 a =
        (if (Fourth.run (Fourth.new α) ops).1.head = a then 0 else 1) ∧
      Fourth.prevRefs (Fourth.run (Fourth.new α) ops).1 a =
        (if (Fourth.run (Fourth.new α) ops).1.tail = a then 0 else 1)) ∧
    ((∀ b, ((Fourth.run (Fourth.new α) ops).1.mem b).isSome = true ↔ b = a) →
      (Fourth.run (Fourth.new α) ops).1.head = a ∧
      (Fourth.run (Fourth.new α) ops).1.tail = a) := by
  obtain ⟨ns2, hinv, -⟩ :=
    (Fourth.run_sim_deque ops (Fourth.new α) [] (Fourth.Inv_new_deque α)).2
  set s := (Fourth.run (Fourth.new α) ops).1 with hs
  have hinv2 : Fourth.Inv ⟨s.mem, s.bump, s.head, s.tail⟩ ns2 := hinv
  constructor
  · intro hsome
    have ha : a ∈ ns2.map Prod.fst := (hinv.2.2.1 a).1 hsome
    have hre := Fourth.Inv_refs_eq hinv2 ha
    refine ⟨?_, rfl, rfl, hre.1, hre.2⟩
    show Fourth.headRef s a + Fourth.tailRef s a +
      Fourth.nextRefs s a + Fourth.prevRefs s a = 2
    have hre1 : Fourth.nextRefs s a = (if s.head = a then 0 else 1) := hre.1
    have hre2 : Fourth.prevRefs s a = (if s.tail = a then 0 else 1) := hre.2
    rw [hre1, hre2]
    show (if s.head = a then 1 else 0) + (if s.tail = a then 1 else 0) +
      (if s.head = a then 0 else 1) + (if s.tail = a then 0 else 1) = 2
    by_cases hh : s.head = a <;> by_cases ht : s.tail = a <;> simp [hh, ht]
  · intro hall
    have hamem : a ∈ ns2.map Prod.fst := (hinv.2.2.1 a).1 ((hall a).2 rfl)
    have hne : ns2 ≠ [] := by
      intro h0
      rw [h0] at hamem
      simp at hamem
    obtain ⟨hhd, htl⟩ := Fourth.Inv_head_tail_mem hinv2 hne
    have h1 : (s.mem s.head).isSome = true := (hinv.2.2.1 s.head).2 hhd
    have h2 : (s.mem s.tail).isSome = true := (hinv.2.2.1 s.tail).2 htl
    exact ⟨(hall s.head).1 h1, (hall s.tail).1 h2⟩

/-- Witness for C9 on the one-element deque obtained by a single
push_front. -/
theorem claim_C9_fourth_two_incoming_witness :
    (((Fourth.run (Fourth.new Nat) [Fourth.Op.pushFront 7]).1.mem 1).isSome = true) ∧
    (Fourth.refs (Fourth.run (Fourth.new Nat) [Fourth.Op.pushFront 7]).1 1 = 2 ∧
      Fourth.headRef (Fourth.run (Fourth.new Nat) [Fourth.Op.pushFront 7]).1 1 =
        (if (Fourth.run (Fourth.new Nat) [Fourth.Op.pushFront 7]).1.head = 1
          then 1 else 0) ∧
      Fourth.tailRef (Fourth.run (Fourth.new Nat) [Fourth.Op.pushFront 7]).1 1 =
        (if (Fourth.run (Fourth.new Nat) [Fourth.Op.pushFront 7]).1.tail = 1
          then 1 else 0) ∧
      Fourth.nextRefs (Fourth.run (Fourth.new Nat) [Fourth.Op.pushFront 7]).1 1 =
        (if (Fourth.run (Fourth.new Nat) [Fourth.Op.pushFront 7]).1.head = 1
          then 0 else 1) ∧
      Fourth.prevRefs (Fourth.run (Fourth.new Nat) [Fourth.Op.pushFront 7]).1 1 =
        (if (Fourth.run (Fourth.new Nat) [Fourth.Op.pushFront 7]).1.tail = 1
          then 0 else 1)) ∧
    (∀ b, ((Fourth.run (Fourth.new Nat) [Fourth.Op.pushFront 7]).1.mem b).isSome =
      true ↔ b = 1) ∧
    ((Fourth.run (Fourth.new Nat) [Fourth.Op.pushFront 7]).1.head = 1 ∧
      (Fourth.run (Fourth.new Nat) [Fourth.Op.pushFront 7]).1.tail = 1) := by
  have hyp2 : ∀ b,
      ((Fourth.run (Fourth.new Nat) [Fourth.Op.pushFront 7]).1.mem b).isSome =
      true ↔ b = 1 := by
    intro b
    show (hupd (fun _ => none) 1 (some (⟨7, 0, 0⟩ : Fourth.NodeD Nat)) b).isSome =
      true ↔ b = 1
    by_cases hb : b = 1
    · subst hb
      simp [hupd]
    · simp [hupd, hb]
  exact ⟨by decide,
    (claim_C9_fourth_two_incoming Nat [Fourth.Op.pushFront 7] 1).1 (by decide),
    hyp2,
    (claim_C9_fourth_two_incoming Nat [Fourth.Op.pushFront 7] 1).2 hyp2⟩
